import Mathlib

/-!
Verification of the text shaping and layout engine of the femtovg
repository (src/src/text/shaper.rs) against its natural-language
specification.  Rust code is shallowly embedded: `f32` arithmetic is
modelled exactly over `Rat`, machine integers over `Nat`/`Int` with
explicit wrap-around where it matters, and the external collaborators
(harfbuzz, the font store, the Unicode property tables) are parameters
of the embedding, since their code is not part of this repository.
-/

namespace Femtovg

/-- Text direction, translated from `enum Direction` in shaper.rs. -/
inductive Direction where
  | Ltr
  | Rtl
deriving DecidableEq, Repr

/-- Unicode script tag.  The real type lives in the external
`unicode_script` crate; the embedding models the constructors that the
shaper's segmentation logic distinguishes (the two wildcard scripts
`Common` and `Inherited`) plus a few concrete scripts used by the
concrete test tables. -/
inductive Script where
  | Latin
  | Arabic
  | Hebrew
  | Common
  | Inherited
  | Unknown
deriving DecidableEq, Repr

/-- Unicode bidirectional class.  The real type lives in the external
`unicode_bidi` crate; the shaper only distinguishes `L`, `R` and `AL`
from everything else, so a representative subset of the remaining
classes is modelled. -/
inductive BidiClass where
  | L
  | R
  | AL
  | EN
  | ES
  | CS
  | ET
  | ON
  | WS
  | B
  | S
  | NSM
  | BN
deriving DecidableEq, Repr

/-- Translated from `impl From<BidiClass> for Direction` in shaper.rs:
`L` maps to LTR, `R` and `AL` map to RTL, everything else defaults to
LTR. -/
def dirOfBidi : BidiClass → Direction
  | .L => .Ltr
  | .R => .Rtl
  | .AL => .Rtl
  | _ => .Ltr

/-- Modelled from the spec: the font weight attribute of a `TextStyle`
(its Rust declaration is outside src/).  Only equality of weights
matters to the shaper, so it is modelled as an opaque numeric tag. -/
structure Weight where
  val : Nat
deriving DecidableEq, Repr

/-- Modelled from the spec: the width-class attribute of a `TextStyle`
(its Rust declaration is outside src/). -/
structure WidthClass where
  val : Nat
deriving DecidableEq, Repr

/-- Modelled from the spec: the slant/font-style attribute of a
`TextStyle` (its Rust declaration is outside src/). -/
structure FontStyle where
  val : Nat
deriving DecidableEq, Repr

/-- Modelled from the spec: horizontal alignment (Left/Center/Right). -/
inductive Align where
  | Left
  | Center
  | Right
deriving DecidableEq, Repr

/-- Modelled from the spec: baseline choice
(Top/Middle/Alphabetic/Bottom). -/
inductive Baseline where
  | Top
  | Middle
  | Alphabetic
  | Bottom
deriving DecidableEq, Repr

/-- Modelled from the spec: render mode, either a plain fill or a stroke
with a line width. -/
inductive RenderStyle where
  | Fill
  | Stroke (width : Rat)
deriving DecidableEq, Repr

/-- Modelled from the spec: the error kinds surfaced by `shape()`:
`NoFontFound` (a glyph's font identifier absent from the font store at
layout time) and `ShapingFailed` (the engine could not process a word
with any candidate font).  The Rust `ErrorKind` declaration is outside
src/. -/
inductive ErrorKind where
  | NoFontFound
  | ShapingFailed
deriving DecidableEq, Repr

/-- Modelled from the spec: the style descriptor consumed by the shaper.
Its Rust declaration is outside src/; the fields are those the spec
lists (point size, weight, width class, slant/style, ordered family
preference, alignment, baseline, letter spacing, blur radius, render
mode), with the field names shaper.rs accesses. -/
structure TextStyle where
  size : Nat
  weight : Weight
  width_class : WidthClass
  font_style : FontStyle
  family_preference : List Nat
  align : Align
  baseline : Baseline
  letter_spacing : Rat
  blur : Rat
  render_style : RenderStyle

/-- UTF-8 encoding of a character, as Rust's `str::as_bytes` exposes it
byte by byte. -/
def utf8Bytes (c : Char) : List Nat :=
  let n := c.toNat
  if n < 0x80 then [n]
  else if n < 0x800 then
    [0xC0 ||| (n >>> 6), 0x80 ||| (n &&& 0x3F)]
  else if n < 0x10000 then
    [0xE0 ||| (n >>> 12), 0x80 ||| ((n >>> 6) &&& 0x3F), 0x80 ||| (n &&& 0x3F)]
  else
    [0xF0 ||| (n >>> 18), 0x80 ||| ((n >>> 12) &&& 0x3F),
      0x80 ||| ((n >>> 6) &&& 0x3F), 0x80 ||| (n &&& 0x3F)]

/-- One round of 64-bit FNV-1a: xor in a byte, multiply by the FNV prime,
wrap at 2^64.  This is what the `fnv` crate's `FnvHasher` does per
byte. -/
def fnvStep (h b : Nat) : Nat := ((h ^^^ b) * 0x100000001b3) % (2 ^ 64)

/-- The hash `ShapingId::new` computes: Rust's `Hash for str` feeds the
UTF-8 bytes of the text followed by a 0xff terminator byte into the
FNV-1a hasher, starting from the 64-bit offset basis. -/
def fnvHashStr (cs : List Char) : Nat :=
  ((cs.flatMap utf8Bytes) ++ [0xff]).foldl fnvStep 0xcbf29ce484222325

/-- Translated from `struct ShapingId` in shaper.rs: the cache key is
the style's size, a hash of the word's text, the weight, the width
class and the font style: nothing else. -/
structure ShapingId where
  size : Nat
  text_hash : Nat
  weight : Weight
  width_class : WidthClass
  font_style : FontStyle
deriving DecidableEq, Repr

/-- Translated from `ShapingId::new` in shaper.rs. -/
def ShapingId.new (style : TextStyle) (text : List Char) : ShapingId :=
  { size := style.size
    text_hash := fnvHashStr text
    weight := style.weight
    width_class := style.width_class
    font_style := style.font_style }

/-- Translated from `struct ShapedGlyph` in shaper.rs, with `f32`
fields modelled over `Rat` and the machine-integer fields over `Nat`. -/
structure ShapedGlyph where
  x : Rat
  y : Rat
  c : Char
  index : Nat
  font_id : Nat
  codepoint : Nat
  width : Rat
  height : Rat
  advance_x : Rat
  advance_y : Rat
  offset_x : Rat
  offset_y : Rat
  bearing_x : Rat
  bearing_y : Rat
  calc_offset_x : Rat
  calc_offset_y : Rat
deriving DecidableEq, Repr

/-- The all-zero glyph produced by `ShapedGlyph::default()`. -/
def ShapedGlyph.zero : ShapedGlyph :=
  { x := 0, y := 0, c := ' ', index := 0, font_id := 0, codepoint := 0
    width := 0, height := 0, advance_x := 0, advance_y := 0
    offset_x := 0, offset_y := 0, bearing_x := 0, bearing_y := 0
    calc_offset_x := 0, calc_offset_y := 0 }

/-- Modelled from the spec: the aggregate output of `shape()` — origin
after alignment, total width and height, and the positioned glyph
sequence.  The Rust `TextLayout` declaration is outside src/. -/
structure TextLayout where
  x : Rat
  y : Rat
  width : Rat
  height : Rat
  glyphs : List ShapedGlyph
deriving DecidableEq, Repr

/-- One glyph as reported by the external shaping engine (harfbuzz):
a glyph codepoint plus advances and offsets in 1/64 font units. -/
structure HbGlyph where
  codepoint : Nat
  x_advance : Int
  y_advance : Int
  x_offset : Int
  y_offset : Int
deriving DecidableEq, Repr

/-- The ink bounding box of a glyph as the font file reports it, in
unscaled font units. -/
structure GlyphBBox where
  width : Int
  height : Int
  x_min : Int
  y_max : Int
deriving DecidableEq, Repr

/-- Modelled from the spec: one entry of the font store.  The shaper
consumes a font through its identifier, its scale factor for a pixel
size, its per-glyph ink bounding box, and its ascender/descender/line
height metrics at a pixel size (the Rust `Font` type is outside
src/). -/
structure Font where
  id : Nat
  scale : Rat → Rat
  bbox : Nat → Option GlyphBBox
  ascender : Rat → Rat
  descender : Rat → Rat
  height : Rat → Rat

/-- Modelled from the spec: the font store.  `candidates` enumerates, in
priority order (explicit family preferences first, then registered
fallbacks), the fonts `find_font` will offer to the shaping closure for
a given style and word; `lookup` is `FontDb::get_mut`, the resolution of
a font identifier at layout time.  The Rust `FontDb` is outside src/. -/
structure FontDb where
  candidates : TextStyle → List Char → List Font
  lookup : Nat → Option Font

/-- The external inputs of a `shape` call that this repository does not
implement: the per-character Unicode script and bidi class tables and
the harfbuzz shaping function (font, scaled size, word, direction,
script ↦ glyph list). -/
structure ShapeEnv where
  scriptOf : Char → Script
  bidiOf : Char → BidiClass
  hbShape : Font → Nat → List Char → Direction → Script → List HbGlyph

/-- The LRU cache of the `lru` crate, as the shaper uses it: an
association list kept in most-recently-used-first order together with
the fixed capacity. -/
structure LruCache (κ ν : Type) where
  entries : List (κ × ν)
  capacity : Nat

/-- `LruCache::peek`: look a key up without touching the use order. -/
def LruCache.peek {κ ν : Type} [DecidableEq κ] (c : LruCache κ ν) (k : κ) :
    Option ν :=
  (c.entries.find? fun e => decide (e.1 = k)).map Prod.snd

/-- `LruCache::get`: look a key up and, when present, move its entry to
the most-recently-used position. -/
def LruCache.get {κ ν : Type} [DecidableEq κ] (c : LruCache κ ν) (k : κ) :
    Option ν × LruCache κ ν :=
  match c.entries.find? fun e => decide (e.1 = k) with
  | none => (none, c)
  | some e =>
      (some e.2, ⟨e :: c.entries.filter fun x => !decide (x.1 = k), c.capacity⟩)

/-- `LruCache::put`: insert or update a key at the most-recently-used
position; when a fresh key is inserted at capacity, the
least-recently-used entry (the back of the list) is evicted first. -/
def LruCache.put {κ ν : Type} [DecidableEq κ] (c : LruCache κ ν) (k : κ) (v : ν) :
    LruCache κ ν :=
  let rest := c.entries.filter fun x => !decide (x.1 = k)
  let rest := if c.capacity ≤ rest.length then rest.dropLast else rest
  ⟨(k, v) :: rest, c.capacity⟩

/-- `LruCache::clear`: drop all entries. -/
def LruCache.clear {κ ν : Type} (c : LruCache κ ν) : LruCache κ ν :=
  ⟨[], c.capacity⟩

/-- Translated from `const LRU_CACHE_CAPACITY: usize = 1000` in
shaper.rs. -/
def LRU_CACHE_CAPACITY : Nat := 1000

/-- The cached value type: `Result<Vec<ShapedGlyph>, ErrorKind>`. -/
def ShapeResult : Type := Except ErrorKind (List ShapedGlyph)

/-- Translated from `struct Shaper` in shaper.rs: it owns the word
cache. -/
structure Shaper where
  cache : LruCache ShapingId ShapeResult

/-- Translated from `impl Default for Shaper`: a fresh shaper holds an
empty cache with capacity `LRU_CACHE_CAPACITY`. -/
def Shaper.default : Shaper := ⟨⟨[], LRU_CACHE_CAPACITY⟩⟩

/-- Translated from `Shaper::clear_cache`. -/
def Shaper.clear_cache (s : Shaper) : Shaper := ⟨s.cache.clear⟩

/-- The body of `UnicodeScriptIterator::next`'s inner `while` loop in
shaper.rs: starting from the current run script and accumulated text,
walk the remaining characters.  A peeked character whose script is
`Common` or `Inherited` counts as the run's script; a run whose script
is still a wildcard adopts the peeked concrete script; the character is
consumed while the two agree, and the loop stops at the first concrete
disagreement.  Returns the final script, the run text and the unconsumed
characters. -/
def runLoop (sf : Char → Script) :
    Script → List Char → List Char → Script × List Char × List Char
  | script, acc, [] => (script, acc, [])
  | script, acc, next :: rest =>
    let ns0 := sf next
    let ns := if ns0 = .Common ∨ ns0 = .Inherited then script else ns0
    let script1 := if script = .Common ∨ script = .Inherited then ns else script
    if ns = script1 then runLoop sf script1 (acc ++ [next]) rest
    else (script1, acc, next :: rest)

theorem runLoop_rest_length (sf : Char → Script) (script : Script)
    (acc cs : List Char) :
    (runLoop sf script acc cs).2.2.length ≤ cs.length := by
  induction cs generalizing script acc with
  | nil => simp [runLoop]
  | cons c rest ih =>
    simp only [runLoop]
    repeat' split
    all_goals first
      | exact Nat.le_trans (ih _ _) (Nat.le_succ _)
      | simp

/-- Translated from `UnicodeScriptIterator::next` iterated to
exhaustion, with an explicit fuel bound so the recursion is structural:
each emitted run consumes at least one character, so any fuel of at
least the input length realizes the iterator exactly
(`unicodeScripts_cons` below recovers the fuel-free unfolding). -/
def unicodeScriptsF (sf : Char → Script) (bf : Char → BidiClass) :
    Nat → List Char → List (Script × Direction × List Char)
  | _, [] => []
  | 0, _ :: _ => []
  | fuel + 1, first :: rest =>
    let r := runLoop sf (sf first) [first] rest
    (r.1, dirOfBidi (bf first), r.2.1) :: unicodeScriptsF sf bf fuel r.2.2

/-- The list of (script, direction, text) runs of a character sequence,
as `text.unicode_scripts()` yields them in `Shaper::shape`.  The
direction of a run is fixed by its first character's bidi class. -/
def unicodeScripts (sf : Char → Script) (bf : Char → BidiClass)
    (cs : List Char) : List (Script × Direction × List Char) :=
  unicodeScriptsF sf bf cs.length cs

theorem unicodeScriptsF_congr (sf : Char → Script) (bf : Char → BidiClass) :
    ∀ (fuel fuel2 : Nat) (cs : List Char), cs.length ≤ fuel →
      cs.length ≤ fuel2 →
      unicodeScriptsF sf bf fuel cs = unicodeScriptsF sf bf fuel2 cs := by
  intro fuel
  induction fuel with
  | zero =>
    intro fuel2 cs h _
    cases cs with
    | nil => cases fuel2 <;> rfl
    | cons a l => simp at h
  | succ k ih =>
    intro fuel2 cs h h2
    cases cs with
    | nil => cases fuel2 <;> rfl
    | cons first rest =>
      cases fuel2 with
      | zero => simp at h2
      | succ k2 =>
        simp only [unicodeScriptsF]
        have hlen := runLoop_rest_length sf (sf first) [first] rest
        have hr : (runLoop sf (sf first) [first] rest).2.2.length ≤ k := by
          simp only [List.length_cons] at h
          omega
        have hr2 : (runLoop sf (sf first) [first] rest).2.2.length ≤ k2 := by
          simp only [List.length_cons] at h2
          omega
        rw [ih k2 _ hr hr2]

theorem unicodeScripts_nil (sf : Char → Script) (bf : Char → BidiClass) :
    unicodeScripts sf bf [] = [] := rfl

/-- The defining unfolding of the run iterator: emit one maximal run,
then continue on the unconsumed characters. -/
theorem unicodeScripts_cons (sf : Char → Script) (bf : Char → BidiClass)
    (first : Char) (rest : List Char) :
    unicodeScripts sf bf (first :: rest) =
      ((runLoop sf (sf first) [first] rest).1, dirOfBidi (bf first),
          (runLoop sf (sf first) [first] rest).2.1) ::
        unicodeScripts sf bf (runLoop sf (sf first) [first] rest).2.2 := by
  show unicodeScriptsF sf bf (rest.length + 1) (first :: rest) = _
  simp only [unicodeScriptsF, unicodeScripts]
  rw [unicodeScriptsF_congr sf bf rest.length
    (runLoop sf (sf first) [first] rest).2.2.length _
    (runLoop_rest_length sf (sf first) [first] rest) (Nat.le_refl _)]

/-- Rust's `str::split_inclusive(sep)`: split after every separator,
each separator staying attached to the end of the preceding piece; a
trailing piece without separator is kept, and the empty string yields
no pieces. -/
def splitInclusive (sep : Char) : List Char → List (List Char)
  | [] => []
  | c :: cs =>
    if c = sep then [c] :: splitInclusive sep cs
    else
      match splitInclusive sep cs with
      | [] => [[c]]
      | w :: ws => (c :: w) :: ws

/-- A word of one run together with the run's direction and script,
which the shaper passes to the engine when the word misses the cache. -/
structure TaggedWord where
  word : List Char
  dir : Direction
  script : Script
deriving DecidableEq, Repr

/-- The word list of one run as `Shaper::shape` builds it: an inclusive
split on spaces, reversed when the run's direction is right-to-left,
each word tagged with the run's direction and script. -/
def taggedWordsOfRun (run : Script × Direction × List Char) :
    List TaggedWord :=
  let ws := splitInclusive ' ' run.2.2
  let ws := if run.2.1 = .Rtl then ws.reverse else ws
  ws.map fun w => ⟨w, run.2.1, run.1⟩

/-- All words of a text as `Shaper::shape` processes them, over all
runs in order. -/
def taggedWords (env : ShapeEnv) (text : List Char) : List TaggedWord :=
  (unicodeScripts env.scriptOf env.bidiOf text).flatMap taggedWordsOfRun

/-- The loop body of the shaping closure in `Shaper::shape`: walk the
harfbuzz output zipped with the word's characters, de-scale advances
and offsets by 64, flag any glyph whose codepoint is 0 as missing, and
fill in the ink metrics from the font's bounding box (the codepoint is
truncated to 16 bits for the lookup, as `info.codepoint as u16` does). -/
def buildGlyphs (font : Font) (scale : Rat) :
    List (HbGlyph × Char) → Bool × List ShapedGlyph
  | [] => (false, [])
  | (p, c) :: rest =>
    let g0 : ShapedGlyph :=
      { ShapedGlyph.zero with
          c := c
          font_id := font.id
          codepoint := p.codepoint
          advance_x := Rat.divInt p.x_advance 64
          advance_y := Rat.divInt p.y_advance 64
          offset_x := Rat.divInt p.x_offset 64
          offset_y := Rat.divInt p.y_offset 64 }
    let g :=
      match font.bbox (p.codepoint % 2 ^ 16) with
      | some b =>
          { g0 with
              width := (b.width : Rat) * scale
              height := (b.height : Rat) * scale
              bearing_x := (b.x_min : Rat) * scale
              bearing_y := (b.y_max : Rat) * scale }
      | none => g0
    let r := buildGlyphs font scale rest
    ((p.codepoint == 0) || r.1, g :: r.2)

/-- The closure `Shaper::shape` hands to `find_font`: shape the word
with harfbuzz at 72 times the point size and build the glyph list,
reporting whether any glyph came back missing. -/
def tryShapeWord (env : ShapeEnv) (style : TextStyle) (word : List Char)
    (dir : Direction) (script : Script) (font : Font) :
    Bool × List ShapedGlyph :=
  let output := env.hbShape font (style.size * 72) word dir script
  buildGlyphs font (font.scale (style.size : Rat)) (output.zip word)

/-- Modelled from the spec: `FontDb::find_font` (outside src/) calls
the closure with each candidate font in priority order, stopping at the
first font that shapes the word with no missing glyph; if none succeeds
cleanly the last attempted result is used best-effort, and if there is
no candidate at all the word fails with `ShapingFailed`.  The second
component counts how many times the closure — that is, the shaping
engine — was invoked. -/
def findFontGo (f : Font → Bool × List ShapedGlyph) :
    List Font → Option (List ShapedGlyph) → Nat → ShapeResult × Nat
  | [], best, n =>
    (match best with
      | some items => .ok items
      | none => .error .ShapingFailed, n)
  | ft :: rest, _, n =>
    let r := f ft
    if r.1 then findFontGo f rest (some r.2) (n + 1) else (.ok r.2, n + 1)

def findFont (fonts : List Font) (f : Font → Bool × List ShapedGlyph) :
    ShapeResult × Nat :=
  findFontGo f fonts none 0

/-- The glyph contribution of a cached lookup result in
`Shaper::shape`: a stored `Ok` pushes its glyph list, anything else
pushes nothing. -/
def glyphsOfResult : Option ShapeResult → List ShapedGlyph
  | some (.ok items) => items
  | _ => []

/-- The per-word step of `Shaper::shape`'s cache loop: build the
`ShapingId`, fill the cache via `find_font` when `peek` misses, then
`get` the stored result; an `Ok` contributes its glyphs, an `Err`
contributes none.  Also returns the number of engine invocations the
step performed. -/
def processWord1 (env : ShapeEnv) (db : FontDb) (style : TextStyle)
    (c : LruCache ShapingId ShapeResult) (tw : TaggedWord) :
    List ShapedGlyph × LruCache ShapingId ShapeResult × Nat :=
  let id := ShapingId.new style tw.word
  let step :=
    if (c.peek id).isNone then
      let r := findFont (db.candidates style tw.word)
        (tryShapeWord env style tw.word tw.dir tw.script)
      (c.put id r.1, r.2)
    else (c, 0)
  let got := step.1.get id
  (glyphsOfResult got.1, got.2, step.2)

/-- The word loop of `Shaper::shape` over a list of tagged words,
threading the cache and summing engine invocations; produces the
per-word glyph lists in order. -/
def processWords (env : ShapeEnv) (db : FontDb) (style : TextStyle)
    (c : LruCache ShapingId ShapeResult) :
    List TaggedWord → List (List ShapedGlyph) × LruCache ShapingId ShapeResult × Nat
  | [] => ([], c, 0)
  | tw :: rest =>
    let r1 := processWord1 env db style c tw
    let r2 := processWords env db style r1.2.1 rest
    (r1.1 :: r2.1, r2.2.1, r1.2.2 + r2.2.2)

/-- The run loop of `Shaper::shape`: per run, split into words, process
them against the cache, and append the flattened glyphs of the run to
the output. -/
def collectRuns (env : ShapeEnv) (db : FontDb) (style : TextStyle)
    (c : LruCache ShapingId ShapeResult) :
    List (Script × Direction × List Char) →
      List ShapedGlyph × LruCache ShapingId ShapeResult × Nat
  | [] => ([], c, 0)
  | r :: rest =>
    let w := processWords env db style c (taggedWordsOfRun r)
    let f := collectRuns env db style w.2.1 rest
    (w.1.flatten ++ f.1, f.2.1, w.2.2 + f.2.2)

/-- Rust's saturating `f32 as u32` cast, applied to the (nonnegative)
blur radius and stroke width: truncate toward zero, clamping into the
u32 range. -/
def ratToU32 (q : Rat) : Nat :=
  if q < 0 then 0 else min q.floor.toNat (2 ^ 32 - 1)

/-- The stroke line width of a style: the `Stroke` width, or 0 under
`Fill` (the `line_width` binding of `Shaper::layout`). -/
def strokeWidthOf (style : TextStyle) : Rat :=
  match style.render_style with
  | .Stroke w => w
  | .Fill => 0

/-- The `padding` computed at the top of `Shaper::layout`:
`GLYPH_PADDING + style.blur as u32 * 2`, plus `width as u32` when the
render style is a stroke.  `gp` stands for the `GLYPH_PADDING` constant,
whose declaration is outside src/. -/
def layoutPadding (gp : Nat) (style : TextStyle) : Nat :=
  let p := gp + ratToU32 style.blur * 2
  match style.render_style with
  | .Stroke w => p + ratToU32 w
  | .Fill => p

/-- The glyph loop of `Shaper::layout`: positioned glyphs plus the
final running minimum `y` and maximum line height; fails with
`NoFontFound` at the first glyph whose font identifier the store cannot
resolve. -/
def layoutGo (padding : Nat) (lw : Rat) (db : FontDb) (style : TextStyle) :
    List ShapedGlyph → Rat → Rat → Rat → Rat →
      Except ErrorKind (List ShapedGlyph × Rat × Rat)
  | [], _, _, h, ym => .ok ([], ym, h)
  | g :: rest, cx, cy, h, ym =>
    let cox := g.offset_x + g.bearing_x - (padding : Rat) - lw / 2
    let coy := g.offset_y - g.bearing_y - (padding : Rat) - lw / 2
    let xpos := cx + cox
    let ypos := cy + coy
    match db.lookup g.font_id with
    | none => .error .NoFontFound
    | some font =>
      let asc := font.ascender (style.size : Rat)
      let desc := font.descender (style.size : Rat)
      let oy :=
        match style.baseline with
        | .Top => asc
        | .Middle => (asc + desc) / 2
        | .Alphabetic => 0
        | .Bottom => desc
      let h1 := max h (font.height (style.size : Rat))
      let ym1 := min ym (ypos + oy)
      let g1 :=
        { g with calc_offset_x := cox, calc_offset_y := coy
                 x := xpos, y := ypos + oy }
      match layoutGo padding lw db style rest
          (cx + g.advance_x + style.letter_spacing) (cy + g.advance_y) h1 ym1 with
      | .ok (gs, ymf, hf) => .ok (g1 :: gs, ymf, hf)
      | .error e => .error e

/-- The total advance width `Shaper::layout` folds over the glyphs. -/
def totalWidth (style : TextStyle) (glyphs : List ShapedGlyph) : Rat :=
  glyphs.foldl (fun w g => w + g.advance_x + style.letter_spacing) 0

/-- The alignment-adjusted output origin of `Shaper::layout`. -/
def alignedX (style : TextStyle) (x width : Rat) : Rat :=
  match style.align with
  | .Center => x - width / 2
  | .Right => x - width
  | .Left => x

/-- Translated from `Shaper::layout`: compute padding, total width and
the alignment-shifted origin, then position every glyph left to right,
accumulating line height and the minimum baseline-adjusted `y`. -/
def layout (gp : Nat) (x y : Rat) (db : FontDb) (style : TextStyle)
    (glyphs : List ShapedGlyph) : Except ErrorKind TextLayout :=
  match layoutGo (layoutPadding gp style) (strokeWidthOf style) db style glyphs
      (alignedX style x (totalWidth style glyphs)) y 0 y with
  | .ok (gs, ymf, hf) =>
      .ok { x := alignedX style x (totalWidth style glyphs), y := ymf
            width := totalWidth style glyphs, height := hf, glyphs := gs }
  | .error e => .error e

/-- Translated from `Shaper::shape`: segment the text into script runs,
split each run into space-inclusive words (reversed for right-to-left
runs), shape each word through the cache, concatenate all glyphs in
order and lay them out.  Besides the `Result`, the embedding returns
the updated shaper and the number of shaping-engine invocations the
call performed. -/
def Shaper.shape (env : ShapeEnv) (gp : Nat) (x y : Rat) (db : FontDb)
    (style : TextStyle) (text : List Char) (s : Shaper) :
    Except ErrorKind TextLayout × Shaper × Nat :=
  let runs := unicodeScripts env.scriptOf env.bidiOf text
  let r := collectRuns env db style s.cache runs
  (layout gp x y db style r.1, ⟨r.2.1⟩, r.2.2)

/-- A concrete instantiation of the Unicode script table for the
characters exercised here, following the published Unicode data the
external `unicode_script` crate encodes: ASCII letters are Latin, the
Hebrew and Arabic blocks carry their scripts, and space, `!`, the ASCII
digits and U+200F RIGHT-TO-LEFT MARK have script Common. -/
def uScript (c : Char) : Script :=
  let n := c.toNat
  if (97 ≤ n ∧ n ≤ 122) ∨ (65 ≤ n ∧ n ≤ 90) then .Latin
  else if 0x590 ≤ n ∧ n ≤ 0x5FF then .Hebrew
  else if 0x600 ≤ n ∧ n ≤ 0x6FF then .Arabic
  else if n = 32 ∨ n = 33 ∨ (48 ≤ n ∧ n ≤ 57) ∨ n = 0x200F then .Common
  else .Unknown

/-- A concrete instantiation of the Unicode bidi-class table for the
same characters, following the published Unicode data the external
`unicode_bidi` crate encodes: ASCII letters are `L`, Hebrew letters and
U+200F RIGHT-TO-LEFT MARK are `R`, Arabic letters are `AL`, space is
`WS`, digits are `EN`, the rest here `ON`. -/
def uBidi (c : Char) : BidiClass :=
  let n := c.toNat
  if (97 ≤ n ∧ n ≤ 122) ∨ (65 ≤ n ∧ n ≤ 90) then .L
  else if (0x590 ≤ n ∧ n ≤ 0x5FF) ∨ n = 0x200F then .R
  else if 0x600 ≤ n ∧ n ≤ 0x6FF then .AL
  else if n = 32 then .WS
  else if 48 ≤ n ∧ n ≤ 57 then .EN
  else .ON

example :
    unicodeScripts uScript uBidi "Hello".toList =
      [(.Latin, .Ltr, "Hello".toList)] := by decide

example :
    (unicodeScripts uScript uBidi "ab cd".toList).length = 1 := by decide

example :
    unicodeScripts uScript uBidi [] = [] := by decide

example :
    splitInclusive ' ' "ab cd ".toList = ["ab ".toList, "cd ".toList] := by
  decide

/-- The key list of a cache, most recently used first. -/
def LruCache.keys {κ ν : Type} (c : LruCache κ ν) : List κ :=
  c.entries.map Prod.fst

/-- Well-formedness of a reachable cache: the size never exceeds the
capacity and keys are not duplicated. -/
def LruCache.WF {κ ν : Type} (c : LruCache κ ν) : Prop :=
  c.entries.length ≤ c.capacity ∧ c.keys.Nodup

/-- Inserting a sequence of key/value pairs, oldest first. -/
def LruCache.putAll {κ ν : Type} [DecidableEq κ] (c : LruCache κ ν)
    (kvs : List (κ × ν)) : LruCache κ ν :=
  kvs.foldl (fun a kv => a.put kv.1 kv.2) c

section LruLemmas

variable {κ ν : Type} [DecidableEq κ]

theorem LruCache.peek_eq_none {c : LruCache κ ν} {k : κ} :
    c.peek k = none ↔ ∀ e ∈ c.entries, e.1 ≠ k := by
  simp [LruCache.peek, List.find?_eq_none]

theorem LruCache.put_capacity (c : LruCache κ ν) (k : κ) (v : ν) :
    (c.put k v).capacity = c.capacity := rfl

theorem LruCache.get_capacity (c : LruCache κ ν) (k : κ) :
    ((c.get k).2).capacity = c.capacity := by
  unfold LruCache.get
  cases c.entries.find? fun e => decide (e.1 = k) <;> rfl

theorem LruCache.putAll_capacity (c : LruCache κ ν) (kvs : List (κ × ν)) :
    (c.putAll kvs).capacity = c.capacity := by
  induction kvs generalizing c with
  | nil => rfl
  | cons kv rest ih => simpa [LruCache.putAll] using ih (c.put kv.1 kv.2)

theorem LruCache.put_mem_ne (c : LruCache κ ν) (k : κ) (v : ν) :
    ∀ e ∈ ((c.put k v).entries).tail, e.1 ≠ k := by
  intro e he
  have hmem : e ∈ c.entries.filter fun x => !decide (x.1 = k) := by
    unfold LruCache.put at he
    simp only [List.tail_cons] at he
    by_cases h : c.capacity ≤ (c.entries.filter fun x => !decide (x.1 = k)).length
    · simp only [h, if_true] at he
      exact (List.dropLast_sublist _).mem he
    · simpa [h] using he
  have := List.of_mem_filter hmem
  simpa using this

theorem LruCache.put_entries_head (c : LruCache κ ν) (k : κ) (v : ν) :
    ∃ rest, (c.put k v).entries = (k, v) :: rest ∧ ∀ e ∈ rest, e.1 ≠ k := by
  refine ⟨((c.put k v).entries).tail, ?_, LruCache.put_mem_ne c k v⟩
  rfl

theorem LruCache.peek_put_self (c : LruCache κ ν) (k : κ) (v : ν) :
    (c.put k v).peek k = some v := by
  simp [LruCache.peek, LruCache.put, List.find?_cons]

theorem LruCache.put_entries_sub (c : LruCache κ ν) (k : κ) (v : ν) :
    ∀ e ∈ (c.put k v).entries, e = (k, v) ∨ e ∈ c.entries := by
  intro e he
  have he2 : e ∈ (k, v) ::
      (if c.capacity ≤ (c.entries.filter fun x => !decide (x.1 = k)).length
        then (c.entries.filter fun x => !decide (x.1 = k)).dropLast
        else c.entries.filter fun x => !decide (x.1 = k)) := he
  rcases List.mem_cons.mp he2 with h | h
  · exact Or.inl h
  · right
    by_cases hc : c.capacity ≤ (c.entries.filter fun x => !decide (x.1 = k)).length
    · rw [if_pos hc] at h
      exact List.mem_of_mem_filter ((List.dropLast_sublist _).mem h)
    · rw [if_neg hc] at h
      exact List.mem_of_mem_filter h

theorem LruCache.get_after_put (c : LruCache κ ν) (k : κ) (v : ν) :
    (c.put k v).get k = (some v, c.put k v) := by
  obtain ⟨rest, hent, hrest⟩ := LruCache.put_entries_head c k v
  unfold LruCache.get
  rw [hent]
  have hfind : (((k, v) :: rest).find? fun e => decide (e.1 = k)) = some (k, v) := by
    simp [List.find?_cons]
  simp only [hfind]
  have hstep : (((k, v) :: rest).filter fun x => !decide (x.1 = k)) =
      rest.filter fun x => !decide (x.1 = k) := by
    simp [List.filter_cons]
  have hfil2 : (rest.filter fun x => !decide (x.1 = k)) = rest :=
    List.filter_eq_self.mpr fun e he => by simpa using hrest e he
  rw [hstep, hfil2, ← hent]

theorem LruCache.put_entries_fresh_notfull (c : LruCache κ ν) (k : κ) (v : ν)
    (hf : c.peek k = none) (hl : c.entries.length < c.capacity) :
    (c.put k v).entries = (k, v) :: c.entries := by
  have hfil : (c.entries.filter fun x => !decide (x.1 = k)) = c.entries :=
    List.filter_eq_self.mpr fun e he => by
      simpa using LruCache.peek_eq_none.mp hf e he
  unfold LruCache.put
  rw [hfil]
  simp [Nat.not_le.mpr hl]

theorem LruCache.put_entries_fresh_full (c : LruCache κ ν) (k : κ) (v : ν)
    (hf : c.peek k = none) (hl : c.capacity ≤ c.entries.length) :
    (c.put k v).entries = (k, v) :: c.entries.dropLast := by
  have hfil : (c.entries.filter fun x => !decide (x.1 = k)) = c.entries :=
    List.filter_eq_self.mpr fun e he => by
      simpa using LruCache.peek_eq_none.mp hf e he
  unfold LruCache.put
  rw [hfil]
  simp [hl]

theorem LruCache.peek_put_fresh_notfull_ne (c : LruCache κ ν) (k k' : κ) (v : ν)
    (hf : c.peek k = none) (hl : c.entries.length < c.capacity)
    (hne : k' ≠ k) : (c.put k v).peek k' = c.peek k' := by
  unfold LruCache.peek
  rw [LruCache.put_entries_fresh_notfull c k v hf hl, List.find?_cons]
  simp [Ne.symm hne]

theorem LruCache.peek_none_put (c : LruCache κ ν) (k k' : κ) (v : ν)
    (hf : c.peek k' = none) (hne : k' ≠ k) : (c.put k v).peek k' = none := by
  rw [LruCache.peek_eq_none] at hf ⊢
  intro e he
  rcases LruCache.put_entries_sub c k v e he with rfl | hmem
  · simpa using Ne.symm hne
  · exact hf e hmem

theorem LruCache.get_fst (c : LruCache κ ν) (k : κ) :
    (c.get k).1 = c.peek k := by
  unfold LruCache.get LruCache.peek
  cases h : c.entries.find? fun e => decide (e.1 = k) <;> simp [h]

theorem find?_filter_of_imp {α : Type} (p q : α → Bool) :
    ∀ l : List α, (∀ x ∈ l, p x = true → q x = true) →
      (l.filter q).find? p = l.find? p := by
  intro l
  induction l with
  | nil => intro _; rfl
  | cons a t ih =>
    intro h
    by_cases hq : q a = true
    · rw [List.filter_cons, if_pos hq, List.find?_cons, List.find?_cons]
      cases hp : p a
      · exact ih fun x hx => h x (List.mem_cons_of_mem a hx)
      · rfl
    · rw [List.filter_cons, if_neg hq]
      have hp : p a = false := by
        cases hpa : p a
        · rfl
        · exact absurd (h a (List.mem_cons_self a t) hpa) hq
      rw [List.find?_cons, hp]
      exact ih fun x hx => h x (List.mem_cons_of_mem a hx)

theorem LruCache.get_peek (c : LruCache κ ν) (k k' : κ) :
    ((c.get k).2).peek k' = c.peek k' := by
  unfold LruCache.get
  cases hfind : c.entries.find? fun e => decide (e.1 = k) with
  | none => rfl
  | some e =>
    have hek : e.1 = k := by simpa using List.find?_some hfind
    by_cases hkk : k' = k
    · subst hkk
      unfold LruCache.peek
      have h1 : (decide (e.1 = k')) = true := by simp [hek]
      simp only [List.find?_cons, h1, hfind]
    · unfold LruCache.peek
      have h1 : (decide (e.1 = k')) = false := by simp [hek, Ne.symm hkk]
      have himp : ∀ x ∈ c.entries, (decide (x.1 = k')) = true →
          (!decide (x.1 = k)) = true := by
        intro x _ hx
        simp only [decide_eq_true_eq] at hx
        simp [hx, hkk]
      have hff := find?_filter_of_imp (fun x : κ × ν => decide (x.1 = k'))
        (fun x : κ × ν => !decide (x.1 = k)) c.entries himp
      simp only [List.find?_cons, h1, hff]

theorem length_filter_lt_of_find? {α : Type} (p : α → Bool) :
    ∀ (l : List α) (e : α), l.find? p = some e →
      (l.filter fun x => !p x).length < l.length := by
  intro l
  induction l with
  | nil => intro e h; simp at h
  | cons a t ih =>
    intro e h
    rw [List.find?_cons] at h
    cases hp : p a
    · rw [hp] at h
      rw [List.filter_cons]
      simp only [hp, Bool.not_false, if_true, List.length_cons]
      exact Nat.succ_lt_succ (ih e h)
    · rw [List.filter_cons]
      simp only [hp, Bool.not_true, Bool.false_eq_true, if_false, List.length_cons]
      exact Nat.lt_succ_of_le (List.length_filter_le _ t)

theorem LruCache.get_length_le (c : LruCache κ ν) (k : κ) :
    ((c.get k).2).entries.length ≤ c.entries.length := by
  unfold LruCache.get
  cases hfind : c.entries.find? fun e => decide (e.1 = k) with
  | none => exact Nat.le_refl _
  | some e =>
    show ((e :: _ : List (κ × ν))).length ≤ _
    rw [List.length_cons]
    exact length_filter_lt_of_find? _ c.entries e hfind

theorem LruCache.put_length_le (c : LruCache κ ν) (k : κ) (v : ν)
    (hcap : 0 < c.capacity) (hl : c.entries.length ≤ c.capacity) :
    (c.put k v).entries.length ≤ c.capacity := by
  show ((k, v) :: (if c.capacity ≤ (c.entries.filter fun x => !decide (x.1 = k)).length
      then (c.entries.filter fun x => !decide (x.1 = k)).dropLast
      else c.entries.filter fun x => !decide (x.1 = k)) : List (κ × ν)).length ≤ c.capacity
  have hfl : (c.entries.filter fun x => !decide (x.1 = k)).length ≤ c.entries.length :=
    List.length_filter_le _ _
  by_cases hc : c.capacity ≤ (c.entries.filter fun x => !decide (x.1 = k)).length
  · rw [if_pos hc, List.length_cons, List.length_dropLast]
    omega
  · rw [if_neg hc, List.length_cons]
    omega

theorem LruCache.get_keys_nodup (c : LruCache κ ν) (k : κ)
    (h : c.keys.Nodup) : ((c.get k).2).keys.Nodup := by
  unfold LruCache.get
  cases hfind : c.entries.find? fun e => decide (e.1 = k) with
  | none => exact h
  | some e =>
    have hek : e.1 = k := by simpa using List.find?_some hfind
    show ((e :: c.entries.filter fun x => !decide (x.1 = k)).map Prod.fst).Nodup
    rw [List.map_cons, List.nodup_cons]
    constructor
    · intro hmem
      obtain ⟨x, hx, hx1⟩ := List.mem_map.mp hmem
      have := List.of_mem_filter hx
      simp only [Bool.not_eq_true', decide_eq_false_iff_not] at this
      exact this (hx1.trans hek)
    · have hsub : ((c.entries.filter fun x => !decide (x.1 = k)).map Prod.fst).Sublist
          (c.entries.map Prod.fst) := (List.filter_sublist _).map _
      exact h.sublist hsub

theorem LruCache.put_keys_nodup (c : LruCache κ ν) (k : κ) (v : ν)
    (h : c.keys.Nodup) : ((c.put k v).keys).Nodup := by
  show (((k, v) :: (if c.capacity ≤ (c.entries.filter fun x => !decide (x.1 = k)).length
      then (c.entries.filter fun x => !decide (x.1 = k)).dropLast
      else c.entries.filter fun x => !decide (x.1 = k)) : List (κ × ν)).map Prod.fst).Nodup
  rw [List.map_cons, List.nodup_cons]
  have hsub0 : (if c.capacity ≤ (c.entries.filter fun x => !decide (x.1 = k)).length
      then (c.entries.filter fun x => !decide (x.1 = k)).dropLast
      else c.entries.filter fun x => !decide (x.1 = k)).Sublist
      (c.entries.filter fun x => !decide (x.1 = k)) := by
    split
    · exact List.dropLast_sublist _
    · exact List.Sublist.refl _
  constructor
  · intro hmem
    obtain ⟨x, hx, hx1⟩ := List.mem_map.mp hmem
    have hx2 := hsub0.mem hx
    have := List.of_mem_filter hx2
    simp only [Bool.not_eq_true', decide_eq_false_iff_not] at this
    exact this hx1
  · have hsub : ((if c.capacity ≤ (c.entries.filter fun x => !decide (x.1 = k)).length
        then (c.entries.filter fun x => !decide (x.1 = k)).dropLast
        else c.entries.filter fun x => !decide (x.1 = k)).map Prod.fst).Sublist
        (c.entries.map Prod.fst) := (hsub0.trans (List.filter_sublist _)).map _
    exact h.sublist hsub

theorem LruCache.put_WF (c : LruCache κ ν) (k : κ) (v : ν)
    (hcap : 0 < c.capacity) (h : c.WF) : (c.put k v).WF := by
  exact ⟨LruCache.put_length_le c k v hcap h.1, LruCache.put_keys_nodup c k v h.2⟩

theorem LruCache.get_WF (c : LruCache κ ν) (k : κ) (h : c.WF) :
    ((c.get k).2).WF := by
  constructor
  · rw [LruCache.get_capacity]
    exact Nat.le_trans (LruCache.get_length_le c k) h.1
  · exact LruCache.get_keys_nodup c k h.2

theorem take_app_take {α : Type} (A B : List α) (n : Nat) :
    (A ++ B.take n).take n = (A ++ B).take n := by
  rw [List.take_append_eq_append_take, List.take_append_eq_append_take,
    List.take_take]
  congr 1
  exact congrArg B.take (Nat.min_eq_left (Nat.sub_le n A.length))

theorem LruCache.keys_length (c : LruCache κ ν) :
    c.keys.length = c.entries.length := by
  simp [LruCache.keys]

theorem LruCache.put_keys_fresh (c : LruCache κ ν) (k : κ) (v : ν)
    (hcap : 0 < c.capacity) (hf : c.peek k = none)
    (hl : c.entries.length ≤ c.capacity) :
    (c.put k v).keys = (k :: c.keys).take c.capacity := by
  by_cases hfull : c.capacity ≤ c.entries.length
  · have hlen : c.entries.length = c.capacity := Nat.le_antisymm hl hfull
    unfold LruCache.keys
    rw [LruCache.put_entries_fresh_full c k v hf hfull, List.map_cons]
    obtain ⟨m, hm⟩ : ∃ m, c.capacity = m + 1 :=
      ⟨c.capacity - 1, by omega⟩
    rw [hm, List.take_succ_cons]
    congr 1
    rw [List.map_dropLast, List.dropLast_eq_take, List.length_map, hlen, hm]
    simp
  · have hlt : c.entries.length < c.capacity := Nat.lt_of_not_le hfull
    unfold LruCache.keys
    rw [LruCache.put_entries_fresh_notfull c k v hf hlt, List.map_cons]
    rw [List.take_of_length_le]
    simp only [List.length_cons, List.length_map]
    omega

theorem LruCache.putAll_cons (c : LruCache κ ν) (kv : κ × ν)
    (rest : List (κ × ν)) :
    c.putAll (kv :: rest) = (c.put kv.1 kv.2).putAll rest := rfl

theorem LruCache.putAll_keys :
    ∀ (kvs : List (κ × ν)) (c : LruCache κ ν), 0 < c.capacity → c.WF →
      (∀ kv ∈ kvs, c.peek kv.1 = none) → (kvs.map Prod.fst).Nodup →
      (c.putAll kvs).keys =
        ((kvs.map Prod.fst).reverse ++ c.keys).take c.capacity := by
  intro kvs
  induction kvs with
  | nil =>
    intro c _ hwf _ _
    show c.keys = c.keys.take c.capacity
    rw [List.take_of_length_le]
    rw [LruCache.keys_length]
    exact hwf.1
  | cons kv rest ih =>
    intro c hcap hwf hfresh hnodup
    rw [List.map_cons, List.nodup_cons] at hnodup
    have hne : ∀ e ∈ rest, e.1 ≠ kv.1 := by
      intro e he heq
      exact hnodup.1 (heq ▸ List.mem_map_of_mem Prod.fst he)
    have hput : (c.put kv.1 kv.2).keys = (kv.1 :: c.keys).take c.capacity :=
      LruCache.put_keys_fresh c kv.1 kv.2 hcap
        (hfresh kv (List.mem_cons_self kv rest)) hwf.1
    have hWF2 : (c.put kv.1 kv.2).WF := LruCache.put_WF c kv.1 kv.2 hcap hwf
    have hfresh2 : ∀ e ∈ rest, (c.put kv.1 kv.2).peek e.1 = none := fun e he =>
      LruCache.peek_none_put c kv.1 e.1 kv.2
        (hfresh e (List.mem_cons_of_mem kv he)) (hne e he)
    have hrec := ih (c.put kv.1 kv.2)
      (by rw [LruCache.put_capacity]; exact hcap) hWF2 hfresh2 hnodup.2
    rw [LruCache.putAll_cons, hrec, LruCache.put_capacity, hput,
      take_app_take, List.map_cons, List.reverse_cons, List.append_assoc]
    rfl

end LruLemmas

/-- The cache key of one tagged word under a style. -/
def wordKey (style : TextStyle) (tw : TaggedWord) : ShapingId :=
  ShapingId.new style tw.word

/-- What a cache miss computes and stores for one tagged word: the
`find_font` result and its engine invocation count. -/
def missResult (env : ShapeEnv) (db : FontDb) (style : TextStyle)
    (tw : TaggedWord) : ShapeResult × Nat :=
  findFont (db.candidates style tw.word)
    (tryShapeWord env style tw.word tw.dir tw.script)

theorem processWord1_hit (env : ShapeEnv) (db : FontDb) (style : TextStyle)
    (c : LruCache ShapingId ShapeResult) (tw : TaggedWord) (r : ShapeResult)
    (h : c.peek (wordKey style tw) = some r) :
    processWord1 env db style c tw =
      (glyphsOfResult (some r), (c.get (wordKey style tw)).2, 0) := by
  unfold processWord1
  have h2 : (c.peek (ShapingId.new style tw.word)).isNone = false := by
    rw [show ShapingId.new style tw.word = wordKey style tw from rfl, h]
    rfl
  simp only [h2, Bool.false_eq_true, if_false]
  have h3 : (c.get (ShapingId.new style tw.word)).1 = some r := by
    rw [LruCache.get_fst]
    exact h
  rw [h3]
  rfl

theorem processWord1_miss (env : ShapeEnv) (db : FontDb) (style : TextStyle)
    (c : LruCache ShapingId ShapeResult) (tw : TaggedWord)
    (h : c.peek (wordKey style tw) = none) :
    processWord1 env db style c tw =
      (glyphsOfResult (some (missResult env db style tw).1),
        c.put (wordKey style tw) (missResult env db style tw).1,
        (missResult env db style tw).2) := by
  unfold processWord1
  have h2 : (c.peek (ShapingId.new style tw.word)).isNone = true := by
    rw [show ShapingId.new style tw.word = wordKey style tw from rfl, h]
    rfl
  simp only [h2, if_true]
  rw [show ShapingId.new style tw.word = wordKey style tw from rfl]
  rw [LruCache.get_after_put]
  rfl

theorem processWords_cons (env : ShapeEnv) (db : FontDb) (style : TextStyle)
    (c : LruCache ShapingId ShapeResult) (tw : TaggedWord)
    (rest : List TaggedWord) :
    processWords env db style c (tw :: rest) =
      ((processWord1 env db style c tw).1 ::
          (processWords env db style (processWord1 env db style c tw).2.1 rest).1,
        (processWords env db style (processWord1 env db style c tw).2.1 rest).2.1,
        (processWord1 env db style c tw).2.2 +
          (processWords env db style (processWord1 env db style c tw).2.1 rest).2.2) :=
  rfl

/-- A first pass that fits in the cache: when the current size plus the
number of words to process stays within capacity, no entry is ever
evicted.  Every previously stored value survives, every processed word
ends up cached, and the glyphs pushed for each word are exactly the
glyph content of the final cache at the word's key. -/
theorem processWords_no_evict (env : ShapeEnv) (db : FontDb)
    (style : TextStyle) :
    ∀ (tws : List TaggedWord) (c : LruCache ShapingId ShapeResult),
      c.WF → c.entries.length + tws.length ≤ c.capacity →
      (∀ k, (c.peek k).isSome →
          ((processWords env db style c tws).2.1).peek k = c.peek k)
      ∧ (∀ tw ∈ tws,
          (((processWords env db style c tws).2.1).peek (wordKey style tw)).isSome)
      ∧ (processWords env db style c tws).1 =
          tws.map (fun tw => glyphsOfResult
            (((processWords env db style c tws).2.1).peek (wordKey style tw)))
      ∧ ((processWords env db style c tws).2.1).WF
      ∧ ((processWords env db style c tws).2.1).capacity = c.capacity
      ∧ ((processWords env db style c tws).2.1).entries.length ≤
          c.entries.length + tws.length := by
  intro tws
  induction tws with
  | nil =>
    intro c hwf hlen
    refine ⟨fun k _ => rfl, by simp, rfl, hwf, rfl, by simp [processWords]⟩
  | cons tw rest ih =>
    intro c hwf hlen
    cases hpk : c.peek (wordKey style tw) with
    | some r =>
      rw [processWords_cons, processWord1_hit env db style c tw r hpk]
      set c2 := (c.get (wordKey style tw)).2 with hc2
      have hpeek2 : ∀ k, c2.peek k = c.peek k := fun k =>
        LruCache.get_peek c (wordKey style tw) k
      have hwf2 : c2.WF := LruCache.get_WF c (wordKey style tw) hwf
      have hcap2 : c2.capacity = c.capacity :=
        LruCache.get_capacity c (wordKey style tw)
      have hle2 : c2.entries.length ≤ c.entries.length :=
        LruCache.get_length_le c (wordKey style tw)
      have hlen2 : c2.entries.length + rest.length ≤ c2.capacity := by
        rw [hcap2]
        simp only [List.length_cons] at hlen
        omega
      obtain ⟨ihA, ihB, ihC, ihD, ihE, ihF⟩ := ih c2 hwf2 hlen2
      refine ⟨?_, ?_, ?_, ihD, by rw [ihE, hcap2], ?_⟩
      · intro k hk
        have hk2 : (c2.peek k).isSome := by rw [hpeek2]; exact hk
        rw [ihA k hk2, hpeek2]
      · intro tw2 htw2
        rcases List.mem_cons.mp htw2 with rfl | htw2
        · have hk2 : (c2.peek (wordKey style tw2)).isSome := by
            rw [hpeek2, hpk]; rfl
          rw [ihA _ hk2, hpeek2, hpk]
          rfl
        · exact ihB tw2 htw2
      · rw [List.map_cons, ← ihC]
        have hk2 : (c2.peek (wordKey style tw)).isSome := by
          rw [hpeek2, hpk]; rfl
        rw [ihA _ hk2, hpeek2, hpk]
      · simp only [List.length_cons]
        omega
    | none =>
      rw [processWords_cons, processWord1_miss env db style c tw hpk]
      have hlt : c.entries.length < c.capacity := by
        simp only [List.length_cons] at hlen
        omega
      have hcap0 : 0 < c.capacity := Nat.lt_of_le_of_lt (Nat.zero_le _) hlt
      set v := (missResult env db style tw).1 with hv
      set c1 := c.put (wordKey style tw) v with hc1
      have hent1 : c1.entries = (wordKey style tw, v) :: c.entries :=
        LruCache.put_entries_fresh_notfull c (wordKey style tw) v hpk hlt
      have hwf1 : c1.WF := LruCache.put_WF c (wordKey style tw) v hcap0 hwf
      have hcap1 : c1.capacity = c.capacity := LruCache.put_capacity c _ _
      have hlen1 : c1.entries.length + rest.length ≤ c1.capacity := by
        rw [hent1, hcap1]
        simp only [List.length_cons] at hlen ⊢
        omega
      have hpk1 : c1.peek (wordKey style tw) = some v :=
        LruCache.peek_put_self c (wordKey style tw) v
      have hpne1 : ∀ k, k ≠ wordKey style tw → c1.peek k = c.peek k :=
        fun k hk => LruCache.peek_put_fresh_notfull_ne c (wordKey style tw) k v
          hpk hlt hk
      obtain ⟨ihA, ihB, ihC, ihD, ihE, ihF⟩ := ih c1 hwf1 hlen1
      refine ⟨?_, ?_, ?_, ihD, by rw [ihE, hcap1], ?_⟩
      · intro k hk
        have hkne : k ≠ wordKey style tw := by
          intro hkk
          rw [hkk, hpk] at hk
          exact Bool.noConfusion hk
        have hk1 : (c1.peek k).isSome := by rw [hpne1 k hkne]; exact hk
        rw [ihA k hk1, hpne1 k hkne]
      · intro tw2 htw2
        rcases List.mem_cons.mp htw2 with rfl | htw2
        · have hk1 : (c1.peek (wordKey style tw2)).isSome := by
            rw [hpk1]; rfl
          rw [ihA _ hk1, hpk1]
          rfl
        · exact ihB tw2 htw2
      · rw [List.map_cons, ← ihC]
        have hk1 : (c1.peek (wordKey style tw)).isSome := by rw [hpk1]; rfl
        rw [ihA _ hk1, hpk1]
      · rw [hent1] at ihF
        simp only [List.length_cons] at ihF ⊢
        omega

/-- A saturated pass: when every word's key is already cached, the word
loop reads everything from the cache, performs zero engine invocations,
and leaves every stored value in place. -/
theorem processWords_saturated (env : ShapeEnv) (db : FontDb)
    (style : TextStyle) :
    ∀ (tws : List TaggedWord) (c : LruCache ShapingId ShapeResult),
      (∀ tw ∈ tws, (c.peek (wordKey style tw)).isSome) →
      (processWords env db style c tws).1 =
          tws.map (fun tw => glyphsOfResult (c.peek (wordKey style tw)))
      ∧ (∀ k, ((processWords env db style c tws).2.1).peek k = c.peek k)
      ∧ (processWords env db style c tws).2.2 = 0 := by
  intro tws
  induction tws with
  | nil =>
    intro c _
    exact ⟨rfl, fun k => rfl, rfl⟩
  | cons tw rest ih =>
    intro c hsat
    obtain ⟨r, hr⟩ := Option.isSome_iff_exists.mp
      (hsat tw (List.mem_cons_self tw rest))
    rw [processWords_cons, processWord1_hit env db style c tw r hr]
    set c2 := (c.get (wordKey style tw)).2 with hc2
    have hpeek2 : ∀ k, c2.peek k = c.peek k := fun k =>
      LruCache.get_peek c (wordKey style tw) k
    have hsat2 : ∀ tw2 ∈ rest, (c2.peek (wordKey style tw2)).isSome := by
      intro tw2 htw2
      rw [hpeek2]
      exact hsat tw2 (List.mem_cons_of_mem tw htw2)
    obtain ⟨ihA, ihB, ihC⟩ := ih c2 hsat2
    refine ⟨?_, ?_, ?_⟩
    · show glyphsOfResult (some r) :: (processWords env db style c2 rest).1 =
        List.map (fun tw2 => glyphsOfResult (c.peek (wordKey style tw2))) (tw :: rest)
      rw [List.map_cons, hr, ihA]
      congr 1
      exact List.map_congr_left fun tw2 _ => by rw [hpeek2]
    · intro k
      show (processWords env db style c2 rest).2.1.peek k = c.peek k
      rw [ihB k, hpeek2]
    · show 0 + (processWords env db style c2 rest).2.2 = 0
      rw [ihC]

theorem collectRuns_cons (env : ShapeEnv) (db : FontDb) (style : TextStyle)
    (c : LruCache ShapingId ShapeResult) (r : Script × Direction × List Char)
    (rest : List (Script × Direction × List Char)) :
    collectRuns env db style c (r :: rest) =
      ((processWords env db style c (taggedWordsOfRun r)).1.flatten ++
          (collectRuns env db style
            (processWords env db style c (taggedWordsOfRun r)).2.1 rest).1,
        (collectRuns env db style
          (processWords env db style c (taggedWordsOfRun r)).2.1 rest).2.1,
        (processWords env db style c (taggedWordsOfRun r)).2.2 +
          (collectRuns env db style
            (processWords env db style c (taggedWordsOfRun r)).2.1 rest).2.2) :=
  rfl

theorem processWords_append (env : ShapeEnv) (db : FontDb) (style : TextStyle) :
    ∀ (A B : List TaggedWord) (c : LruCache ShapingId ShapeResult),
      (processWords env db style c (A ++ B)).1 =
        (processWords env db style c A).1 ++
          (processWords env db style (processWords env db style c A).2.1 B).1
      ∧ (processWords env db style c (A ++ B)).2.1 =
          (processWords env db style (processWords env db style c A).2.1 B).2.1
      ∧ (processWords env db style c (A ++ B)).2.2 =
          (processWords env db style c A).2.2 +
            (processWords env db style (processWords env db style c A).2.1 B).2.2 := by
  intro A
  induction A with
  | nil =>
    intro B c
    exact ⟨rfl, rfl, (Nat.zero_add _).symm⟩
  | cons tw A ih =>
    intro B c
    rw [List.cons_append, processWords_cons, processWords_cons]
    obtain ⟨h1, h2, h3⟩ := ih B (processWord1 env db style c tw).2.1
    refine ⟨?_, h2, ?_⟩
    · rw [h1, List.cons_append]
    · rw [h3, Nat.add_assoc]

theorem collectRuns_eq (env : ShapeEnv) (db : FontDb) (style : TextStyle) :
    ∀ (runs : List (Script × Direction × List Char))
      (c : LruCache ShapingId ShapeResult),
      (collectRuns env db style c runs).1 =
        (processWords env db style c (runs.flatMap taggedWordsOfRun)).1.flatten
      ∧ (collectRuns env db style c runs).2.1 =
          (processWords env db style c (runs.flatMap taggedWordsOfRun)).2.1
      ∧ (collectRuns env db style c runs).2.2 =
          (processWords env db style c (runs.flatMap taggedWordsOfRun)).2.2 := by
  intro runs
  induction runs with
  | nil =>
    intro c
    exact ⟨rfl, rfl, rfl⟩
  | cons r rest ih =>
    intro c
    rw [collectRuns_cons, List.flatMap_cons]
    obtain ⟨e1, e2, e3⟩ :=
      ih (processWords env db style c (taggedWordsOfRun r)).2.1
    obtain ⟨a1, a2, a3⟩ := processWords_append env db style (taggedWordsOfRun r)
      (rest.flatMap taggedWordsOfRun) c
    refine ⟨?_, ?_, ?_⟩
    · rw [a1, List.flatten_append, e1]
    · rw [a2, e2]
    · rw [a3, e3]

theorem processWords_length_le (env : ShapeEnv) (db : FontDb)
    (style : TextStyle) :
    ∀ (tws : List TaggedWord) (c : LruCache ShapingId ShapeResult),
      0 < c.capacity → c.entries.length ≤ c.capacity →
      ((processWords env db style c tws).2.1).entries.length ≤ c.capacity
      ∧ ((processWords env db style c tws).2.1).capacity = c.capacity := by
  intro tws
  induction tws with
  | nil =>
    intro c _ hl
    exact ⟨hl, rfl⟩
  | cons tw rest ih =>
    intro c hcap hl
    have step : ((processWord1 env db style c tw).2.1).entries.length ≤ c.capacity
        ∧ ((processWord1 env db style c tw).2.1).capacity = c.capacity := by
      cases hpk : c.peek (wordKey style tw) with
      | some r =>
        rw [processWord1_hit env db style c tw r hpk]
        exact ⟨Nat.le_trans (LruCache.get_length_le c _) hl,
          LruCache.get_capacity c _⟩
      | none =>
        rw [processWord1_miss env db style c tw hpk]
        exact ⟨LruCache.put_length_le c _ _ hcap hl, LruCache.put_capacity c _ _⟩
    rw [processWords_cons]
    have hrec := ih (processWord1 env db style c tw).2.1
      (by rw [step.2]; exact hcap) (by rw [step.2]; exact step.1)
    exact ⟨by rw [← step.2]; exact hrec.1, by rw [hrec.2, step.2]⟩

/-- C1 (amended): shaping the same style and text twice, starting from
a fresh shaper, returns the same result and performs zero engine
invocations on the second call, provided the text's words fit within
the cache capacity (beyond it, the first call evicts its own earliest
entries, see the counterexample). -/
theorem C1_shape_idempotent_within_capacity (env : ShapeEnv) (gp : Nat)
    (x y : Rat) (db : FontDb) (style : TextStyle) (text : List Char)
    (h : (taggedWords env text).length ≤ LRU_CACHE_CAPACITY) :
    (Shaper.shape env gp x y db style text
        (Shaper.shape env gp x y db style text Shaper.default).2.1).1 =
      (Shaper.shape env gp x y db style text Shaper.default).1
    ∧ (Shaper.shape env gp x y db style text
        (Shaper.shape env gp x y db style text Shaper.default).2.1).2.2 = 0 := by
  have hwf0 : (Shaper.default).cache.WF := by
    constructor
    · show ([] : List (ShapingId × ShapeResult)).length ≤ LRU_CACHE_CAPACITY
      simp
    · show (([] : List (ShapingId × ShapeResult)).map Prod.fst).Nodup
      simp
  have hlen0 : (Shaper.default).cache.entries.length +
      (taggedWords env text).length ≤ (Shaper.default).cache.capacity := by
    show ([] : List (ShapingId × ShapeResult)).length + _ ≤ LRU_CACHE_CAPACITY
    simpa using h
  obtain ⟨n1A, n1B, n1C, _, _, _⟩ := processWords_no_evict env db style
    (taggedWords env text) Shaper.default.cache hwf0 hlen0
  obtain ⟨c1A, c1B, c1C⟩ := collectRuns_eq env db style
    (unicodeScripts env.scriptOf env.bidiOf text) Shaper.default.cache
  obtain ⟨s2A, s2B, s2C⟩ := processWords_saturated env db style
    (taggedWords env text)
    (processWords env db style Shaper.default.cache (taggedWords env text)).2.1
    n1B
  obtain ⟨c2A, c2B, c2C⟩ := collectRuns_eq env db style
    (unicodeScripts env.scriptOf env.bidiOf text)
    (processWords env db style Shaper.default.cache (taggedWords env text)).2.1
  have hcache : ((Shaper.shape env gp x y db style text Shaper.default).2.1).cache =
      (processWords env db style Shaper.default.cache (taggedWords env text)).2.1 := by
    show (collectRuns env db style Shaper.default.cache
      (unicodeScripts env.scriptOf env.bidiOf text)).2.1 = _
    exact c1B
  constructor
  · show layout gp x y db style
        (collectRuns env db style
          ((Shaper.shape env gp x y db style text Shaper.default).2.1).cache
          (unicodeScripts env.scriptOf env.bidiOf text)).1 =
      layout gp x y db style
        (collectRuns env db style Shaper.default.cache
          (unicodeScripts env.scriptOf env.bidiOf text)).1
    rw [hcache]
    have hg : (collectRuns env db style
        (processWords env db style Shaper.default.cache (taggedWords env text)).2.1
        (unicodeScripts env.scriptOf env.bidiOf text)).1 =
        (collectRuns env db style Shaper.default.cache
          (unicodeScripts env.scriptOf env.bidiOf text)).1 := by
      rw [c2A, c1A]
      show (processWords env db style _ (taggedWords env text)).1.flatten =
        (processWords env db style _ (taggedWords env text)).1.flatten
      rw [s2A, n1C]
    rw [hg]
  · show (collectRuns env db style
        ((Shaper.shape env gp x y db style text Shaper.default).2.1).cache
        (unicodeScripts env.scriptOf env.bidiOf text)).2.2 = 0
    rw [hcache, c2C]
    exact s2C


/-! Concrete instances used by witnesses and counterexamples. -/

/-- A sample font: identifier 7, unit scale, a fixed ink box for every
glyph, ascender 8, descender -2, line height 11. -/
def exFont : Font :=
  { id := 7
    scale := fun _ => 1
    bbox := fun _ => some ⟨10, 12, 1, 9⟩
    ascender := fun _ => 8
    descender := fun _ => -2
    height := fun _ => 11 }

/-- A font store holding `exFont` under identifier 7 and offering it as
the only shaping candidate. -/
def exDb : FontDb :=
  { candidates := fun _ _ => [exFont]
    lookup := fun i => if i = 7 then some exFont else none }

/-- A font store that offers `exFont` for shaping but resolves no
identifier at layout time. -/
def exDbNoFont : FontDb :=
  { candidates := fun _ _ => [exFont]
    lookup := fun _ => none }

/-- A font store with no candidate fonts at all: every word fails to
shape. -/
def exDbEmpty : FontDb :=
  { candidates := fun _ _ => []
    lookup := fun _ => none }

/-- A sample shaping engine: one glyph per character, codepoint equal to
the character code, advance 10 pixels (640/64), no offsets. -/
def exHb : Font → Nat → List Char → Direction → Script → List HbGlyph :=
  fun _ _ w _ _ => w.map fun ch => ⟨ch.toNat, 640, 0, 0, 0⟩

/-- The sample environment: concrete Unicode tables plus `exHb`. -/
def exEnv : ShapeEnv := ⟨uScript, uBidi, exHb⟩

/-- A baseline sample style. -/
def exStyle : TextStyle :=
  { size := 16, weight := ⟨400⟩, width_class := ⟨5⟩, font_style := ⟨0⟩
    family_preference := [], align := .Left, baseline := .Alphabetic
    letter_spacing := 0, blur := 0, render_style := .Fill }

/-- `exStyle` with every layout-only field changed: alignment, baseline,
letter spacing and blur differ, the shape-relevant fields agree. -/
def exStyleLayout : TextStyle :=
  { size := 16, weight := ⟨400⟩, width_class := ⟨5⟩, font_style := ⟨0⟩
    family_preference := [], align := .Right, baseline := .Bottom
    letter_spacing := 3, blur := 2, render_style := .Fill }

/-- C2: two calls whose styles agree on size, weight, width class and
font style and whose word text is identical construct the same
`ShapingId`, hence look up the same cache entry; alignment, baseline,
letter spacing and blur do not enter the key. -/
theorem C2_shaping_key_ignores_layout_fields (s1 s2 : TextStyle)
    (w : List Char) (hs : s1.size = s2.size) (hw : s1.weight = s2.weight)
    (hwc : s1.width_class = s2.width_class)
    (hfs : s1.font_style = s2.font_style) :
    ShapingId.new s1 w = ShapingId.new s2 w
    ∧ ∀ (c : LruCache ShapingId ShapeResult),
        c.peek (ShapingId.new s1 w) = c.peek (ShapingId.new s2 w) := by
  have hk : ShapingId.new s1 w = ShapingId.new s2 w := by
    simp [ShapingId.new, hs, hw, hwc, hfs]
  exact ⟨hk, fun c => by rw [hk]⟩

/-- Witness for C2: concrete styles differing in alignment, baseline,
letter spacing and blur produce the same key for the same word. -/
theorem C2_witness :
    ShapingId.new exStyle ['h', 'i'] = ShapingId.new exStyleLayout ['h', 'i']
    ∧ ∀ (c : LruCache ShapingId ShapeResult),
        c.peek (ShapingId.new exStyle ['h', 'i']) =
          c.peek (ShapingId.new exStyleLayout ['h', 'i']) :=
  C2_shaping_key_ignores_layout_fields exStyle exStyleLayout ['h', 'i']
    rfl rfl rfl rfl

theorem splitInclusive_cons_sep (sep : Char) (cs : List Char) :
    splitInclusive sep (sep :: cs) = [sep] :: splitInclusive sep cs := by
  simp [splitInclusive]

theorem splitInclusive_cons_ne (sep c : Char) (cs : List Char) (h : c ≠ sep) :
    splitInclusive sep (c :: cs) =
      match splitInclusive sep cs with
      | [] => [[c]]
      | w :: ws => (c :: w) :: ws := by
  simp [splitInclusive, h]

theorem splitInclusive_flatten (sep : Char) :
    ∀ t : List Char, (splitInclusive sep t).flatten = t := by
  intro t
  induction t with
  | nil => rfl
  | cons c cs ih =>
    by_cases hc : c = sep
    · subst hc
      rw [splitInclusive_cons_sep]
      simp [ih]
    · rw [splitInclusive_cons_ne sep c cs hc]
      cases hs : splitInclusive sep cs with
      | nil =>
        rw [hs] at ih
        simp only [List.flatten_nil] at ih
        simp [← ih]
      | cons w ws =>
        rw [hs] at ih
        simp only [List.flatten_cons] at ih ⊢
        simp [ih]

theorem mem_dropLast_cons_cases (ch c : Char) (v : List Char)
    (h : ch ∈ (c :: v).dropLast) : ch = c ∨ ch ∈ v.dropLast := by
  cases v with
  | nil => simp at h
  | cons v0 vt =>
    rw [List.dropLast_cons₂] at h
    rcases List.mem_cons.mp h with rfl | h2
    · exact Or.inl rfl
    · exact Or.inr h2

theorem splitInclusive_words (sep : Char) :
    ∀ t : List Char, ∀ w ∈ splitInclusive sep t,
      w ≠ [] ∧ ∀ ch ∈ w.dropLast, ch ≠ sep := by
  intro t
  induction t with
  | nil => intro w hw; simp [splitInclusive] at hw
  | cons c cs ih =>
    intro w hw
    by_cases hc : c = sep
    · subst hc
      rw [splitInclusive_cons_sep] at hw
      rcases List.mem_cons.mp hw with rfl | hw
      · exact ⟨by simp, by simp⟩
      · exact ih w hw
    · rw [splitInclusive_cons_ne sep c cs hc] at hw
      cases hs : splitInclusive sep cs with
      | nil =>
        rw [hs] at hw
        rcases List.mem_cons.mp hw with rfl | hw
        · refine ⟨by simp, ?_⟩
          intro ch hch
          simp at hch
        · simp at hw
      | cons v vs =>
        rw [hs] at hw
        rcases List.mem_cons.mp hw with rfl | hw
        · have hv := ih v (hs ▸ List.mem_cons_self v vs)
          refine ⟨by simp, ?_⟩
          intro ch hch
          rcases mem_dropLast_cons_cases ch c v hch with rfl | hch2
          · exact hc
          · exact hv.2 ch hch2
        · exact ih w (hs ▸ List.mem_cons_of_mem v hw)

/-- C7: the word splitter splits a run's text on spaces inclusively
(nothing is lost, characters keep logical order, a space can only sit
at the end of its word), the word sequence is reversed exactly when the
run is right-to-left, and a left-to-right run keeps the split order. -/
theorem C7_word_split (scr : Script) (t : List Char) :
    (splitInclusive ' ' t).flatten = t
    ∧ (∀ w ∈ splitInclusive ' ' t, w ≠ [] ∧ ∀ ch ∈ w.dropLast, ch ≠ ' ')
    ∧ (taggedWordsOfRun (scr, .Rtl, t)).map TaggedWord.word =
        ((taggedWordsOfRun (scr, .Ltr, t)).map TaggedWord.word).reverse
    ∧ (taggedWordsOfRun (scr, .Ltr, t)).map TaggedWord.word =
        splitInclusive ' ' t := by
  refine ⟨splitInclusive_flatten ' ' t, splitInclusive_words ' ' t, ?_, ?_⟩
  · show (((splitInclusive ' ' t).reverse).map fun w =>
        TaggedWord.mk w .Rtl scr).map TaggedWord.word =
      (((splitInclusive ' ' t).map fun w =>
        TaggedWord.mk w .Ltr scr).map TaggedWord.word).reverse
    simp [List.map_map, Function.comp_def, List.map_reverse]
  · show ((splitInclusive ' ' t).map fun w =>
        TaggedWord.mk w .Ltr scr).map TaggedWord.word = splitInclusive ' ' t
    simp [List.map_map, Function.comp_def]

/-- Witness for C7: a concrete three-word text, split and reversed. -/
theorem C7_witness :
    (splitInclusive ' ' "ab cd e".toList).flatten = "ab cd e".toList
    ∧ (∀ w ∈ splitInclusive ' ' "ab cd e".toList,
        w ≠ [] ∧ ∀ ch ∈ w.dropLast, ch ≠ ' ')
    ∧ (taggedWordsOfRun (.Latin, .Rtl, "ab cd e".toList)).map TaggedWord.word =
        ((taggedWordsOfRun (.Latin, .Ltr, "ab cd e".toList)).map
          TaggedWord.word).reverse
    ∧ (taggedWordsOfRun (.Latin, .Ltr, "ab cd e".toList)).map TaggedWord.word =
        splitInclusive ' ' "ab cd e".toList :=
  C7_word_split .Latin "ab cd e".toList

/-- A font like `exFont` but reporting no ink bounding box, so shaped
glyphs keep zero metrics and stay in reduction-friendly form. -/
def exFontNb : Font :=
  { id := 7
    scale := fun _ => 1
    bbox := fun _ => none
    ascender := fun _ => 8
    descender := fun _ => -2
    height := fun _ => 11 }

/-- A font store that offers `exFontNb` for shaping but resolves no
identifier at layout time. -/
def exDbNb : FontDb :=
  { candidates := fun _ _ => [exFontNb]
    lookup := fun _ => none }

/-- The sample environment over `exHb` glyphs shaped with `exFontNb`. -/
def exGlyphA : ShapedGlyph :=
  { ShapedGlyph.zero with
      c := 'a', font_id := 7, codepoint := 97
      advance_x := Rat.divInt 640 64, advance_y := Rat.divInt 0 64
      offset_x := Rat.divInt 0 64, offset_y := Rat.divInt 0 64 }

/-- The layout of an empty glyph list at origin (100, 50): origin kept,
zero width and height. -/
def exTl0 : TextLayout :=
  { x := 100, y := 50, width := 0, height := 0, glyphs := [] }

theorem layoutGo_error (padding : Nat) (lw : Rat) (db : FontDb)
    (style : TextStyle) :
    ∀ (glyphs : List ShapedGlyph) (cx cy h ym : Rat) (g : ShapedGlyph),
      g ∈ glyphs → db.lookup g.font_id = none →
      layoutGo padding lw db style glyphs cx cy h ym = .error .NoFontFound := by
  intro glyphs
  induction glyphs with
  | nil => intro _ _ _ _ g hg; exact absurd hg (by simp)
  | cons a rest ih =>
    intro cx cy h ym g hg hnone
    rcases List.mem_cons.mp hg with rfl | hg
    · unfold layoutGo
      rw [hnone]
    · cases hl : db.lookup a.font_id with
      | none =>
        unfold layoutGo
        rw [hl]
      | some font =>
        unfold layoutGo
        rw [hl]
        simp only
        rw [ih _ _ _ _ g hg hnone]

/-- C5: if any glyph of the concatenated glyph sequence references a
font identifier the store cannot resolve at layout time, `shape` fails
with `NoFontFound` and returns no `TextLayout`. -/
theorem C5_missing_font_aborts (env : ShapeEnv) (gp : Nat) (x y : Rat)
    (db : FontDb) (style : TextStyle) (text : List Char) (s : Shaper)
    (g : ShapedGlyph)
    (hg : g ∈ (collectRuns env db style s.cache
        (unicodeScripts env.scriptOf env.bidiOf text)).1)
    (hnone : db.lookup g.font_id = none) :
    (Shaper.shape env gp x y db style text s).1 = .error .NoFontFound := by
  show layout gp x y db style
      (collectRuns env db style s.cache
        (unicodeScripts env.scriptOf env.bidiOf text)).1 = _
  unfold layout
  rw [layoutGo_error _ _ db style _ _ _ _ _ g hg hnone]

set_option maxRecDepth 4000 in
/-- Witness for C5: with the sample engine but a store that resolves no
identifier, shaping the text `a` fails with `NoFontFound`. -/
theorem C5_witness :
    (Shaper.shape exEnv 2 100 50 exDbNb exStyle ['a'] Shaper.default).1 =
      .error .NoFontFound :=
  C5_missing_font_aborts exEnv 2 100 50 exDbNb exStyle ['a']
    Shaper.default exGlyphA (by decide) rfl

theorem totalWidth_eq_sum (style : TextStyle) :
    ∀ (glyphs : List ShapedGlyph) (a : Rat),
      glyphs.foldl (fun w g => w + g.advance_x + style.letter_spacing) a =
        a + (glyphs.map fun g => g.advance_x + style.letter_spacing).sum := by
  intro glyphs
  induction glyphs with
  | nil => intro a; simp
  | cons g rest ih =>
    intro a
    simp only [List.foldl_cons, List.map_cons, List.sum_cons]
    rw [ih]
    ring

/-- C6: a successful layout reports as total width the sum over all
glyphs of advance plus letter spacing, and shifts the output origin
from the input x by nothing for Left alignment, by half the width for
Center, and by the full width for Right. -/
theorem C6_layout_width_alignment (gp : Nat) (x y : Rat) (db : FontDb)
    (style : TextStyle) (glyphs : List ShapedGlyph) (tl : TextLayout)
    (h : layout gp x y db style glyphs = .ok tl) :
    tl.width = (glyphs.map fun g => g.advance_x + style.letter_spacing).sum
    ∧ tl.x = (match style.align with
        | .Left => x
        | .Center => x - tl.width / 2
        | .Right => x - tl.width) := by
  unfold layout at h
  cases hgo : layoutGo (layoutPadding gp style) (strokeWidthOf style) db style
      glyphs (alignedX style x (totalWidth style glyphs)) y 0 y with
  | error e =>
    rw [hgo] at h
    exact absurd h (by simp)
  | ok val =>
    rw [hgo] at h
    obtain ⟨gs, ymf, hf⟩ := val
    simp only [Except.ok.injEq] at h
    have hw : tl.width = totalWidth style glyphs := by rw [← h]
    have hx : tl.x = alignedX style x (totalWidth style glyphs) := by rw [← h]
    have hsum : totalWidth style glyphs =
        (glyphs.map fun g => g.advance_x + style.letter_spacing).sum := by
      unfold totalWidth
      rw [totalWidth_eq_sum style glyphs 0, Rat.zero_add]
    refine ⟨by rw [hw, hsum], ?_⟩
    rw [hx, hw]
    unfold alignedX
    cases style.align <;> rfl

/-- Witness for C6: an empty glyph sequence laid out at x = 100 under
left alignment keeps its origin and has zero width. -/
theorem C6_witness :
    exTl0.width = (([] : List ShapedGlyph).map fun g =>
        g.advance_x + exStyle.letter_spacing).sum
    ∧ exTl0.x = (match exStyle.align with
        | .Left => (100 : Rat)
        | .Center => 100 - exTl0.width / 2
        | .Right => 100 - exTl0.width) :=
  C6_layout_width_alignment 2 100 50 exDb exStyle [] exTl0 rfl

/-- The tagged word used by the C8 witness. -/
def exTw : TaggedWord := ⟨['a'], .Ltr, .Latin⟩

/-- C8: when `find_font` fails for a word that missed the cache, the
error is stored in the cache under the word's key exactly like a
success (negative caching), the failed word contributes an empty glyph
list, and the remaining words are processed from the updated cache as
usual. -/
theorem C8_negative_caching (env : ShapeEnv) (db : FontDb)
    (style : TextStyle) (c : LruCache ShapingId ShapeResult)
    (tw : TaggedWord) (rest : List TaggedWord) (e : ErrorKind)
    (hm : c.peek (wordKey style tw) = none)
    (he : (missResult env db style tw).1 = .error e) :
    (processWords env db style c (tw :: rest)).1 =
      [] :: (processWords env db style
        (c.put (wordKey style tw) (.error e)) rest).1
    ∧ (processWords env db style c (tw :: rest)).2.1 =
        (processWords env db style
          (c.put (wordKey style tw) (.error e)) rest).2.1
    ∧ (processWords env db style c (tw :: rest)).2.2 =
        (missResult env db style tw).2 +
          (processWords env db style
            (c.put (wordKey style tw) (.error e)) rest).2.2
    ∧ (c.put (wordKey style tw) (.error e)).peek (wordKey style tw) =
        some (.error e) := by
  rw [processWords_cons, processWord1_miss env db style c tw hm, he]
  exact ⟨rfl, rfl, rfl, LruCache.peek_put_self c (wordKey style tw) (.error e)⟩

/-- Witness for C8: with no candidate fonts, the single word `a` fails
with `ShapingFailed`, the failure is cached under its key, and the word
contributes no glyphs. -/
theorem C8_witness :
    (processWords exEnv exDbEmpty exStyle Shaper.default.cache [exTw]).1 =
      [] :: (processWords exEnv exDbEmpty exStyle
        (Shaper.default.cache.put (wordKey exStyle exTw)
          (.error .ShapingFailed)) []).1
    ∧ (Shaper.default.cache.put (wordKey exStyle exTw)
        (.error .ShapingFailed)).peek (wordKey exStyle exTw) =
        some (.error .ShapingFailed) :=
  ⟨(C8_negative_caching exEnv exDbEmpty exStyle Shaper.default.cache exTw []
      .ShapingFailed rfl rfl).1,
    (C8_negative_caching exEnv exDbEmpty exStyle Shaper.default.cache exTw []
      .ShapingFailed rfl rfl).2.2.2⟩

/-- The style exhibiting the C9 truncation: fractional blur radius and
fractional stroke width. -/
def exStyleBlur : TextStyle :=
  { exStyle with
      blur := Rat.divInt 3 2
      render_style := .Stroke (Rat.divInt 5 2) }

/-- Counterexample for C9: with blur 3/2 and stroke width 5/2 the code
computes padding 0 + (3/2 cast to u32)·2 + (5/2 cast to u32) = 4, while
the claim's formula 0 + 2·(3/2) + 5/2 gives 11/2. -/
theorem C9_counterexample :
    ((layoutPadding 0 exStyleBlur : Nat) : Rat) ≠
      (0 : Rat) + 2 * exStyleBlur.blur + strokeWidthOf exStyleBlur := by
  have h4 : layoutPadding 0 exStyleBlur = 4 := by decide
  have hb : exStyleBlur.blur = Rat.divInt 3 2 := rfl
  have hw : strokeWidthOf exStyleBlur = Rat.divInt 5 2 := rfl
  rw [h4, hb, hw, Rat.divInt_eq_div, Rat.divInt_eq_div]
  norm_num

theorem layoutGo_offsets (padding : Nat) (lw : Rat) (db : FontDb)
    (style : TextStyle) :
    ∀ (glyphs : List ShapedGlyph) (cx cy h ym : Rat)
      (gs : List ShapedGlyph) (ymf hf : Rat),
      layoutGo padding lw db style glyphs cx cy h ym = .ok (gs, ymf, hf) →
      List.Forall₂ (fun g g2 =>
        g2.calc_offset_x = g.offset_x + g.bearing_x - (padding : Rat) - lw / 2
        ∧ g2.calc_offset_y =
            g.offset_y - g.bearing_y - (padding : Rat) - lw / 2)
        glyphs gs := by
  intro glyphs
  induction glyphs with
  | nil =>
    intro cx cy h ym gs ymf hf hgo
    unfold layoutGo at hgo
    simp only [Except.ok.injEq, Prod.mk.injEq] at hgo
    rw [← hgo.1]
    exact List.Forall₂.nil
  | cons g rest ih =>
    intro cx cy h ym gs ymf hf hgo
    unfold layoutGo at hgo
    cases hl : db.lookup g.font_id with
    | none =>
      rw [hl] at hgo
      exact absurd hgo (by simp)
    | some font =>
      rw [hl] at hgo
      simp only at hgo
      split at hgo
      · next gs2 ymf2 hf2 heq =>
        simp only [Except.ok.injEq, Prod.mk.injEq] at hgo
        rw [← hgo.1]
        exact List.Forall₂.cons ⟨rfl, rfl⟩ (ih _ _ _ _ _ _ _ heq)
      · exact absurd hgo (by simp)

/-- C9 (amended): the padding used during layout equals the fixed glyph
padding plus 2 times the blur radius truncated to a u32, plus the
stroke line width truncated to a u32 when the render mode is Stroke and
nothing otherwise; this padding and half the untruncated stroke line
width are subtracted in each output glyph's calc_offset_x and
calc_offset_y. -/
theorem C9_padding_and_offsets :
    (∀ (gp : Nat) (style : TextStyle),
      layoutPadding gp style = gp + ratToU32 style.blur * 2 +
        (match style.render_style with
          | .Stroke w => ratToU32 w
          | .Fill => 0))
    ∧ (∀ (gp : Nat) (x y : Rat) (db : FontDb) (style : TextStyle)
        (glyphs : List ShapedGlyph) (tl : TextLayout),
        layout gp x y db style glyphs = .ok tl →
        List.Forall₂ (fun g g2 =>
          g2.calc_offset_x = g.offset_x + g.bearing_x -
            (layoutPadding gp style : Rat) - strokeWidthOf style / 2
          ∧ g2.calc_offset_y = g.offset_y - g.bearing_y -
            (layoutPadding gp style : Rat) - strokeWidthOf style / 2)
          glyphs tl.glyphs) := by
  constructor
  · intro gp style
    unfold layoutPadding
    cases style.render_style with
    | Fill => simp
    | Stroke w => rfl
  · intro gp x y db style glyphs tl h
    unfold layout at h
    cases hgo : layoutGo (layoutPadding gp style) (strokeWidthOf style) db
        style glyphs (alignedX style x (totalWidth style glyphs)) y 0 y with
    | error e =>
      rw [hgo] at h
      exact absurd h (by simp)
    | ok val =>
      rw [hgo] at h
      obtain ⟨gs, ymf, hf⟩ := val
      simp only [Except.ok.injEq] at h
      have hgl : tl.glyphs = gs := by rw [← h]
      rw [hgl]
      exact layoutGo_offsets (layoutPadding gp style) (strokeWidthOf style)
        db style glyphs _ _ _ _ gs ymf hf hgo

/-- Witness for C9 (amended): padding formula at `exStyle` and the
offset relation on the empty layout. -/
theorem C9_witness :
    layoutPadding 2 exStyle = 2 + ratToU32 exStyle.blur * 2 +
      (match exStyle.render_style with
        | .Stroke w => ratToU32 w
        | .Fill => 0)
    ∧ List.Forall₂ (fun (g g2 : ShapedGlyph) =>
        g2.calc_offset_x = g.offset_x + g.bearing_x -
          (layoutPadding 2 exStyle : Rat) - strokeWidthOf exStyle / 2
        ∧ g2.calc_offset_y = g.offset_y - g.bearing_y -
          (layoutPadding 2 exStyle : Rat) - strokeWidthOf exStyle / 2)
        ([] : List ShapedGlyph) exTl0.glyphs :=
  ⟨C9_padding_and_offsets.1 2 exStyle,
    C9_padding_and_offsets.2 2 100 50 exDb exStyle [] exTl0 rfl⟩

/-- U+200F RIGHT-TO-LEFT MARK: wildcard script (Common), bidi class R. -/
def rlmChar : Char := Char.ofNat 0x200F

theorem runLoop_wild_next (sf : Char → Script) (scr : Script)
    (acc : List Char) (n : Char) (rest : List Char)
    (h : sf n = .Common ∨ sf n = .Inherited) :
    runLoop sf scr acc (n :: rest) = runLoop sf scr (acc ++ [n]) rest := by
  simp only [runLoop]
  rw [if_pos h]
  simp only [ite_self]
  simp

theorem runLoop_adopt (sf : Char → Script) (scr : Script)
    (acc : List Char) (n : Char) (rest : List Char)
    (hscr : scr = .Common ∨ scr = .Inherited)
    (hn : ¬(sf n = .Common ∨ sf n = .Inherited)) :
    runLoop sf scr acc (n :: rest) = runLoop sf (sf n) (acc ++ [n]) rest := by
  simp only [runLoop]
  rw [if_neg hn, if_pos hscr, if_pos rfl]

theorem runLoop_concrete_same (sf : Char → Script) (scr : Script)
    (acc : List Char) (n : Char) (rest : List Char)
    (hscr : ¬(scr = .Common ∨ scr = .Inherited))
    (hn : ¬(sf n = .Common ∨ sf n = .Inherited)) (heq : sf n = scr) :
    runLoop sf scr acc (n :: rest) = runLoop sf scr (acc ++ [n]) rest := by
  simp only [runLoop]
  rw [if_neg hn, if_neg hscr, if_pos heq]

theorem runLoop_concrete_break (sf : Char → Script) (scr : Script)
    (acc : List Char) (n : Char) (rest : List Char)
    (hscr : ¬(scr = .Common ∨ scr = .Inherited))
    (hn : ¬(sf n = .Common ∨ sf n = .Inherited)) (hne : sf n ≠ scr) :
    runLoop sf scr acc (n :: rest) = (scr, acc, n :: rest) := by
  simp only [runLoop]
  rw [if_neg hn, if_neg hscr, if_neg hne]

theorem runLoop_acc_grows (sf : Char → Script) :
    ∀ (cs : List Char) (scr : Script) (acc : List Char),
      ∃ t, (runLoop sf scr acc cs).2.1 = acc ++ t := by
  intro cs
  induction cs with
  | nil => intro scr acc; exact ⟨[], by simp [runLoop]⟩
  | cons n rest ih =>
    intro scr acc
    simp only [runLoop]
    by_cases h : (if sf n = Script.Common ∨ sf n = Script.Inherited then scr
        else sf n) = (if scr = Script.Common ∨ scr = Script.Inherited
          then if sf n = Script.Common ∨ sf n = Script.Inherited then scr
            else sf n
          else scr)
    · rw [if_pos h]
      obtain ⟨t, ht⟩ := ih _ (acc ++ [n])
      exact ⟨n :: t, by rw [ht]; simp⟩
    · rw [if_neg h]
      exact ⟨[], by simp⟩

theorem unicodeScriptsF_run_head (sf : Char → Script) (bf : Char → BidiClass) :
    ∀ (fuel : Nat) (cs : List Char) (r : Script × Direction × List Char),
      r ∈ unicodeScriptsF sf bf fuel cs →
      ∃ c t, r.2.2 = c :: t ∧ r.2.1 = dirOfBidi (bf c) := by
  intro fuel
  induction fuel with
  | zero =>
    intro cs r hr
    cases cs with
    | nil => exact absurd hr (by simp [unicodeScriptsF])
    | cons a l => exact absurd hr (by simp [unicodeScriptsF])
  | succ k ih =>
    intro cs r hr
    cases cs with
    | nil => exact absurd hr (by simp [unicodeScriptsF])
    | cons first rest =>
      simp only [unicodeScriptsF] at hr
      rcases List.mem_cons.mp hr with rfl | hr
      · obtain ⟨t, ht⟩ := runLoop_acc_grows sf rest (sf first) [first]
        exact ⟨first, t, by simpa using ht, rfl⟩
      · exact ih _ r hr

theorem runLoop_all_wild (sf : Char → Script) :
    ∀ (cs : List Char) (scr : Script) (acc : List Char),
      (∀ x ∈ cs, sf x = .Common ∨ sf x = .Inherited) →
      runLoop sf scr acc cs = (scr, acc ++ cs, []) := by
  intro cs
  induction cs with
  | nil => intro scr acc _; simp [runLoop]
  | cons n rest ih =>
    intro scr acc h
    rw [runLoop_wild_next sf scr acc n rest (h n (List.mem_cons_self n rest))]
    rw [ih scr (acc ++ [n]) fun x hx => h x (List.mem_cons_of_mem n hx)]
    simp

theorem runLoop_concrete_all (sf : Char → Script) (S : Script)
    (hS : ¬(S = .Common ∨ S = .Inherited)) :
    ∀ (cs : List Char) (acc : List Char),
      (∀ x ∈ cs, sf x = S ∨ sf x = .Common ∨ sf x = .Inherited) →
      runLoop sf S acc cs = (S, acc ++ cs, []) := by
  intro cs
  induction cs with
  | nil => intro acc _; simp [runLoop]
  | cons n rest ih =>
    intro acc h
    have hstep : runLoop sf S acc (n :: rest) = runLoop sf S (acc ++ [n]) rest := by
      rcases h n (List.mem_cons_self n rest) with hn | hn
      · by_cases hw : sf n = Script.Common ∨ sf n = Script.Inherited
        · exact runLoop_wild_next sf S acc n rest hw
        · exact runLoop_concrete_same sf S acc n rest hS hw hn
      · exact runLoop_wild_next sf S acc n rest hn
    rw [hstep, ih (acc ++ [n]) fun x hx => h x (List.mem_cons_of_mem n hx)]
    simp

theorem unicodeScripts_all_wild (sf : Char → Script) (bf : Char → BidiClass)
    (c : Char) (cs : List Char)
    (h : ∀ x ∈ c :: cs, sf x = .Common ∨ sf x = .Inherited) :
    unicodeScripts sf bf (c :: cs) = [(sf c, dirOfBidi (bf c), c :: cs)] := by
  rw [unicodeScripts_cons]
  rw [runLoop_all_wild sf cs (sf c) [c]
    fun x hx => h x (List.mem_cons_of_mem c hx)]
  rfl

theorem unicodeScripts_one_concrete (sf : Char → Script)
    (bf : Char → BidiClass) (S : Script)
    (hS : ¬(S = .Common ∨ S = .Inherited)) (c : Char) (cs : List Char)
    (hc : sf c = S)
    (hall : ∀ x ∈ cs, sf x = S ∨ sf x = .Common ∨ sf x = .Inherited) :
    unicodeScripts sf bf (c :: cs) = [(S, dirOfBidi (bf c), c :: cs)] := by
  rw [unicodeScripts_cons, hc, runLoop_concrete_all sf S hS cs [c] hall]
  rfl

/-- C4 (amended): the bidi-to-direction map sends L to LTR, R and AL to
RTL, everything else to LTR; every emitted run's direction is that of
its first character; wildcard-script characters extend any run; a run
with undetermined (wildcard) script adopts the first concrete script it
meets; a boundary occurs exactly when two concrete scripts differ; empty
input yields no runs; and input of wildcard-script characters only
yields exactly one run whose direction is derived from the first
character's bidi class — LTR unless that class is R or AL, as for
U+200F RIGHT-TO-LEFT MARK (script Common, bidi class R). -/
theorem C4_segmentation (sf : Char → Script) (bf : Char → BidiClass) :
    (dirOfBidi .L = .Ltr ∧ dirOfBidi .R = .Rtl ∧ dirOfBidi .AL = .Rtl ∧
      ∀ b, b ≠ .L → b ≠ .R → b ≠ .AL → dirOfBidi b = .Ltr)
    ∧ (∀ (cs : List Char) (r : Script × Direction × List Char),
        r ∈ unicodeScripts sf bf cs →
        ∃ c t, r.2.2 = c :: t ∧ r.2.1 = dirOfBidi (bf c))
    ∧ (∀ (scr : Script) (acc : List Char) (n : Char) (rest : List Char),
        (sf n = .Common ∨ sf n = .Inherited) →
        runLoop sf scr acc (n :: rest) = runLoop sf scr (acc ++ [n]) rest)
    ∧ (∀ (scr : Script) (acc : List Char) (n : Char) (rest : List Char),
        (scr = .Common ∨ scr = .Inherited) →
        ¬(sf n = .Common ∨ sf n = .Inherited) →
        runLoop sf scr acc (n :: rest) = runLoop sf (sf n) (acc ++ [n]) rest)
    ∧ (∀ (scr : Script) (acc : List Char) (n : Char) (rest : List Char),
        ¬(scr = .Common ∨ scr = .Inherited) →
        ¬(sf n = .Common ∨ sf n = .Inherited) →
        (sf n = scr →
          runLoop sf scr acc (n :: rest) = runLoop sf scr (acc ++ [n]) rest)
        ∧ (sf n ≠ scr →
            runLoop sf scr acc (n :: rest) = (scr, acc, n :: rest)))
    ∧ unicodeScripts sf bf [] = []
    ∧ (∀ (c : Char) (cs : List Char),
        (∀ x ∈ c :: cs, sf x = .Common ∨ sf x = .Inherited) →
        unicodeScripts sf bf (c :: cs) = [(sf c, dirOfBidi (bf c), c :: cs)]) := by
  refine ⟨⟨rfl, rfl, rfl, ?_⟩, ?_, ?_, ?_, ?_, rfl, ?_⟩
  · intro b h1 h2 h3
    cases b <;> simp_all [dirOfBidi]
  · intro cs r hr
    exact unicodeScriptsF_run_head sf bf cs.length cs r hr
  · intro scr acc n rest h
    exact runLoop_wild_next sf scr acc n rest h
  · intro scr acc n rest h1 h2
    exact runLoop_adopt sf scr acc n rest h1 h2
  · intro scr acc n rest h1 h2
    exact ⟨runLoop_concrete_same sf scr acc n rest h1 h2,
      runLoop_concrete_break sf scr acc n rest h1 h2⟩
  · intro c cs h
    exact unicodeScripts_all_wild sf bf c cs h

/-- Witness for C4 (amended): concrete tables; a wildcard-only run of
three exclamation marks is one LTR run, and the wildcard step lemma is
exercised on a space following a Latin script. -/
theorem C4_witness :
    unicodeScripts uScript uBidi ['!', '!', '!'] =
      [(uScript '!', dirOfBidi (uBidi '!'), ['!', '!', '!'])]
    ∧ runLoop uScript .Latin ['a'] [' '] =
        runLoop uScript .Latin (['a'] ++ [' ']) [] :=
  ⟨(C4_segmentation uScript uBidi).2.2.2.2.2.2 '!' ['!', '!']
      (by decide),
    (C4_segmentation uScript uBidi).2.2.1 .Latin ['a'] ' ' [] (by decide)⟩

/-- Counterexample for C4 as stated: U+200F RIGHT-TO-LEFT MARK has
wildcard script Common, yet the single run it forms has RTL direction,
because the run direction comes from the bidi class (R), not from the
script. -/
theorem C4_counterexample :
    (∀ x ∈ [rlmChar], uScript x = .Common ∨ uScript x = .Inherited)
    ∧ unicodeScripts uScript uBidi [rlmChar] = [(.Common, .Rtl, [rlmChar])]
    ∧ (unicodeScripts uScript uBidi [rlmChar]).map (fun r => r.2.1) ≠
        [.Ltr] := by
  refine ⟨by decide, by decide, by decide⟩

/-- C3: the shaping cache never exceeds its 1000-entry capacity — a put
into a full cache stays at the bound and a whole `shape` call preserves
it — and inserting capacity+1 distinct keys into a fresh shaper's cache
leaves exactly capacity entries, the evicted entry being exactly the
least-recently-accessed (first-inserted) one: the surviving keys are
all but the first, in most-recently-used-first order. -/
theorem C3_cache_capacity :
    (∀ (c : LruCache ShapingId ShapeResult) (k : ShapingId) (v : ShapeResult),
      c.capacity = LRU_CACHE_CAPACITY →
      c.entries.length ≤ LRU_CACHE_CAPACITY →
      (c.put k v).entries.length ≤ LRU_CACHE_CAPACITY)
    ∧ (∀ (env : ShapeEnv) (gp : Nat) (x y : Rat) (db : FontDb)
        (style : TextStyle) (text : List Char) (s : Shaper),
        s.cache.capacity = LRU_CACHE_CAPACITY →
        s.cache.entries.length ≤ LRU_CACHE_CAPACITY →
        ((Shaper.shape env gp x y db style text s).2.1).cache.entries.length ≤
          LRU_CACHE_CAPACITY)
    ∧ (∀ (kvs : List (ShapingId × ShapeResult)),
        (kvs.map Prod.fst).Nodup → kvs.length = LRU_CACHE_CAPACITY + 1 →
        (Shaper.default.cache.putAll kvs).entries.length = LRU_CACHE_CAPACITY
        ∧ (Shaper.default.cache.putAll kvs).keys =
            ((kvs.map Prod.fst).drop 1).reverse) := by
  refine ⟨?_, ?_, ?_⟩
  · intro c k v hc hl
    have h := LruCache.put_length_le c k v (by rw [hc]; decide)
      (by rw [hc]; exact hl)
    rw [hc] at h
    exact h
  · intro env gp x y db style text s hc hl
    have hcr := (collectRuns_eq env db style
      (unicodeScripts env.scriptOf env.bidiOf text) s.cache).2.1
    have hb := (processWords_length_le env db style
      ((unicodeScripts env.scriptOf env.bidiOf text).flatMap taggedWordsOfRun)
      s.cache (by rw [hc]; decide) (by rw [hc]; exact hl)).1
    rw [hc] at hb
    show (collectRuns env db style s.cache
      (unicodeScripts env.scriptOf env.bidiOf text)).2.1.entries.length ≤ _
    rw [hcr]
    exact hb
  · intro kvs hnd hlen
    have hwf : (Shaper.default.cache).WF := by
      exact ⟨by show (0 : Nat) ≤ 1000; decide, by
        show (([] : List (ShapingId × ShapeResult)).map Prod.fst).Nodup
        simp⟩
    have hkeys := LruCache.putAll_keys kvs Shaper.default.cache
      (by show 0 < 1000; decide) hwf (fun kv _ => rfl) hnd
    have hlen2 : (kvs.map Prod.fst).length = LRU_CACHE_CAPACITY + 1 := by
      rw [List.length_map]; exact hlen
    cases hk : kvs.map Prod.fst with
    | nil => rw [hk] at hlen2; exact absurd hlen2 (by decide)
    | cons k0 krest =>
      rw [hk] at hlen2
      have hkr : krest.length = LRU_CACHE_CAPACITY := by
        simpa using hlen2
      rw [hk] at hkeys
      have hrev : (k0 :: krest).reverse = krest.reverse ++ [k0] := by
        simp
      have hcap : (Shaper.default.cache).capacity = LRU_CACHE_CAPACITY := rfl
      have hkeys2 : (Shaper.default.cache.putAll kvs).keys = krest.reverse := by
        rw [hkeys, hrev, hcap]
        show (krest.reverse ++ [k0] ++
          ([] : List ShapingId)).take LRU_CACHE_CAPACITY = krest.reverse
        rw [List.append_nil]
        have : LRU_CACHE_CAPACITY = krest.reverse.length := by
          rw [List.length_reverse, hkr]
        rw [this, List.take_left]
      constructor
      · have := congrArg List.length hkeys2
        rw [LruCache.keys_length] at this
        rw [this, List.length_reverse, hkr]
      · rw [hkeys2]
        simp [hk]

/-- The concrete key/value list used by the C3 witness: 1001 distinct
keys differing in their text hash. -/
def exKvs : List (ShapingId × ShapeResult) :=
  (List.range (LRU_CACHE_CAPACITY + 1)).map fun i =>
    (⟨0, i, ⟨0⟩, ⟨0⟩, ⟨0⟩⟩, (.ok [] : ShapeResult))

/-- Witness for C3: the 1001 concrete distinct keys overflow the fresh
cache down to exactly 1000 entries, evicting the first-inserted key. -/
theorem C3_witness :
    (Shaper.default.cache.putAll exKvs).entries.length = LRU_CACHE_CAPACITY
    ∧ (Shaper.default.cache.putAll exKvs).keys =
        ((exKvs.map Prod.fst).drop 1).reverse := by
  have hnd : (exKvs.map Prod.fst).Nodup := by
    have hmap : exKvs.map Prod.fst =
        (List.range (LRU_CACHE_CAPACITY + 1)).map
          (fun i => (⟨0, i, ⟨0⟩, ⟨0⟩, ⟨0⟩⟩ : ShapingId)) := by
      simp [exKvs]
    rw [hmap]
    refine List.Nodup.map ?_ (List.nodup_range _)
    intro a b h
    exact congrArg ShapingId.text_hash h
  exact C3_cache_capacity.2.2 exKvs hnd (by simp [exKvs])

theorem shape_fst (env : ShapeEnv) (gp : Nat) (x y : Rat) (db : FontDb)
    (style : TextStyle) (text : List Char) (s : Shaper) :
    (Shaper.shape env gp x y db style text s).1 =
      layout gp x y db style (collectRuns env db style s.cache
        (unicodeScripts env.scriptOf env.bidiOf text)).1 := rfl

theorem shape_cache (env : ShapeEnv) (gp : Nat) (x y : Rat) (db : FontDb)
    (style : TextStyle) (text : List Char) (s : Shaper) :
    ((Shaper.shape env gp x y db style text s).2.1).cache =
      (collectRuns env db style s.cache
        (unicodeScripts env.scriptOf env.bidiOf text)).2.1 := rfl

theorem shape_count (env : ShapeEnv) (gp : Nat) (x y : Rat) (db : FontDb)
    (style : TextStyle) (text : List Char) (s : Shaper) :
    (Shaper.shape env gp x y db style text s).2.2 =
      (collectRuns env db style s.cache
        (unicodeScripts env.scriptOf env.bidiOf text)).2.2 := rfl

/-- Hebrew letter shin, bidi class R. -/
def shinChar : Char := Char.ofNat 0x5E9

/-- The word `! ` (wildcard script): identical text can appear both in
an RTL Hebrew run and in an LTR Latin run. -/
def wBang10 : List Char := ['!', ' ']

/-- The word `ש `. -/
def wShin10 : List Char := [shinChar, ' ']

/-- The word `a `. -/
def wA10 : List Char := ['a', ' ']

/-- First text: a Hebrew RTL run containing the word `! `. -/
def text1C10 : List Char := [shinChar, ' ', '!', ' ']

/-- Second text: a Latin LTR run containing the same word `! `. -/
def text2C10 : List Char := ['a', ' ', '!', ' ']

/-- An environment with the concrete Unicode tables and an arbitrary
shaping engine. -/
def envOf (H : Font → Nat → List Char → Direction → Script → List HbGlyph) :
    ShapeEnv := ⟨uScript, uBidi, H⟩

theorem shapingId_new_ne (style : TextStyle) (w w2 : List Char)
    (h : fnvHashStr w ≠ fnvHashStr w2) :
    ShapingId.new style w ≠ ShapingId.new style w2 :=
  fun he => h (congrArg ShapingId.text_hash he)

/-- C10: the cache key is computed from the shape-relevant style fields
and a hash of the word text only — not from the run's direction or
script.  Consequently, after shaping the Hebrew RTL text `ש ! `, a
second call on the Latin LTR text `a ! ` returns for the shared word
`! ` exactly the glyph list that `find_font` produced under direction
Rtl and script Hebrew (no reshaping), and the second call's engine
invocations are exactly those spent on the fresh word `a `.  This holds
for every engine, font store and style. -/
theorem C10_key_ignores_direction_and_script
    (H : Font → Nat → List Char → Direction → Script → List HbGlyph)
    (gp : Nat) (x y : Rat) (db : FontDb) (style : TextStyle) :
    (Shaper.shape (envOf H) gp x y db style text2C10
        (Shaper.shape (envOf H) gp x y db style text1C10
          Shaper.default).2.1).1 =
      layout gp x y db style
        (glyphsOfResult (some (findFont (db.candidates style wA10)
            (tryShapeWord (envOf H) style wA10 .Ltr .Latin)).1) ++
          glyphsOfResult (some (findFont (db.candidates style wBang10)
            (tryShapeWord (envOf H) style wBang10 .Rtl .Hebrew)).1))
    ∧ (Shaper.shape (envOf H) gp x y db style text2C10
        (Shaper.shape (envOf H) gp x y db style text1C10
          Shaper.default).2.1).2.2 =
      (findFont (db.candidates style wA10)
        (tryShapeWord (envOf H) style wA10 .Ltr .Latin)).2 := by
  have hseg1 : unicodeScripts uScript uBidi text1C10 =
      [(.Hebrew, .Rtl, text1C10)] := by decide
  have hseg2 : unicodeScripts uScript uBidi text2C10 =
      [(.Latin, .Ltr, text2C10)] := by decide
  have htw1 : taggedWordsOfRun (Script.Hebrew, Direction.Rtl, text1C10) =
      [⟨wBang10, .Rtl, .Hebrew⟩, ⟨wShin10, .Rtl, .Hebrew⟩] := by decide
  have htw2 : taggedWordsOfRun (Script.Latin, Direction.Ltr, text2C10) =
      [⟨wA10, .Ltr, .Latin⟩, ⟨wBang10, .Ltr, .Latin⟩] := by decide
  have hSB : ShapingId.new style wShin10 ≠ ShapingId.new style wBang10 :=
    shapingId_new_ne style wShin10 wBang10 (by decide)
  have hAB : ShapingId.new style wA10 ≠ ShapingId.new style wBang10 :=
    shapingId_new_ne style wA10 wBang10 (by decide)
  have hAS : ShapingId.new style wA10 ≠ ShapingId.new style wShin10 :=
    shapingId_new_ne style wA10 wShin10 (by decide)
  have hBA : ShapingId.new style wBang10 ≠ ShapingId.new style wA10 :=
    fun he => hAB he.symm
  set env := envOf H with henv
  set c0 := Shaper.default.cache with hc0
  set twB : TaggedWord := ⟨wBang10, .Rtl, .Hebrew⟩ with htwB
  set twS : TaggedWord := ⟨wShin10, .Rtl, .Hebrew⟩ with htwS
  set twA2 : TaggedWord := ⟨wA10, .Ltr, .Latin⟩ with htwA2
  set twB2 : TaggedWord := ⟨wBang10, .Ltr, .Latin⟩ with htwB2
  set vB := (missResult env db style twB).1 with hvB
  set vS := (missResult env db style twS).1 with hvS
  set vA := (missResult env db style twA2).1 with hvA
  have hkB : wordKey style twB = ShapingId.new style wBang10 := rfl
  have hkS : wordKey style twS = ShapingId.new style wShin10 := rfl
  have hkA : wordKey style twA2 = ShapingId.new style wA10 := rfl
  have hkB2 : wordKey style twB2 = ShapingId.new style wBang10 := rfl
  have hpB0 : c0.peek (wordKey style twB) = none := rfl
  have hstep1 := processWord1_miss env db style c0 twB hpB0
  set c1 := c0.put (wordKey style twB) vB with hc1
  have hlen0 : c0.entries.length < c0.capacity := by
    show ([] : List (ShapingId × ShapeResult)).length < LRU_CACHE_CAPACITY
    decide
  have hent1 : c1.entries = [(wordKey style twB, vB)] :=
    LruCache.put_entries_fresh_notfull c0 (wordKey style twB) vB hpB0 hlen0
  have hpS1 : c1.peek (wordKey style twS) = none := by
    rw [hc1]
    exact LruCache.peek_none_put c0 (wordKey style twB)
      (wordKey style twS) vB rfl (by rw [hkS, hkB]; exact hSB)
  have hstep2 := processWord1_miss env db style c1 twS hpS1
  set c2 := c1.put (wordKey style twS) vS with hc2
  have hlen1 : c1.entries.length < c1.capacity := by
    rw [hent1]
    show 1 < LRU_CACHE_CAPACITY
    decide
  have hent2 : c2.entries = (wordKey style twS, vS) :: [(wordKey style twB, vB)] := by
    rw [hc2]
    rw [LruCache.put_entries_fresh_notfull c1 (wordKey style twS) vS hpS1 hlen1]
    rw [hent1]
  have hrun1 : (processWords env db style c0 [twB, twS]).2.1 = c2 := by
    rw [processWords_cons, hstep1]
    show (processWords env db style c1 [twS]).2.1 = c2
    rw [processWords_cons, hstep2]
    rfl
  have hseg1e : unicodeScripts env.scriptOf env.bidiOf text1C10 =
      [(.Hebrew, .Rtl, text1C10)] := hseg1
  have hseg2e : unicodeScripts env.scriptOf env.bidiOf text2C10 =
      [(.Latin, .Ltr, text2C10)] := hseg2
  have hcache1 : ((Shaper.shape env gp x y db style text1C10
      Shaper.default).2.1).cache = c2 := by
    rw [shape_cache, hseg1e, collectRuns_cons, htw1]
    show (collectRuns env db style
      (processWords env db style c0 [twB, twS]).2.1 []).2.1 = c2
    rw [hrun1]
    rfl
  have hpA2 : c2.peek (wordKey style twA2) = none := by
    rw [hc2, hc1]
    refine LruCache.peek_none_put c1 (wordKey style twS)
      (wordKey style twA2) vS ?_ (by rw [hkA, hkS]; exact hAS)
    exact LruCache.peek_none_put c0 (wordKey style twB)
      (wordKey style twA2) vB rfl (by rw [hkA, hkB]; exact hAB)
  have hstepA := processWord1_miss env db style c2 twA2 hpA2
  set c3 := c2.put (wordKey style twA2) vA with hc3
  have hlen2 : c2.entries.length < c2.capacity := by
    rw [hent2]
    show 2 < LRU_CACHE_CAPACITY
    decide
  have hpB2 : c2.peek (wordKey style twB2) = some vB := by
    rw [hc2]
    rw [LruCache.peek_put_fresh_notfull_ne c1 (wordKey style twS)
      (wordKey style twB2) vS hpS1 hlen1 (by rw [hkB2, hkS]; exact hSB.symm)]
    rw [hc1]
    exact LruCache.peek_put_self c0 (wordKey style twB) vB
  have hpB3 : c3.peek (wordKey style twB2) = some vB := by
    rw [hc3]
    rw [LruCache.peek_put_fresh_notfull_ne c2 (wordKey style twA2)
      (wordKey style twB2) vA hpA2 hlen2 (by rw [hkB2, hkA]; exact hBA)]
    exact hpB2
  have hstepB := processWord1_hit env db style c3 twB2 vB hpB3
  have hrun2glyphs : (processWords env db style c2 [twA2, twB2]).1 =
      [glyphsOfResult (some vA), glyphsOfResult (some vB)] := by
    rw [processWords_cons, hstepA]
    show glyphsOfResult (some vA) ::
      (processWords env db style c3 [twB2]).1 = _
    rw [processWords_cons, hstepB]
    rfl
  have hrun2count : (processWords env db style c2 [twA2, twB2]).2.2 =
      (missResult env db style twA2).2 := by
    rw [processWords_cons, hstepA]
    show (missResult env db style twA2).2 +
      (processWords env db style c3 [twB2]).2.2 = _
    rw [processWords_cons, hstepB]
    rfl
  constructor
  · rw [shape_fst, hcache1, hseg2e, collectRuns_cons, htw2]
    have hglue : (collectRuns env db style
        (processWords env db style c2 [twA2, twB2]).2.1 []).1 = [] := rfl
    rw [hglue, List.append_nil, hrun2glyphs]
    simp only [List.flatten_cons, List.flatten_nil, List.append_nil]
    rfl
  · rw [shape_count, hcache1, hseg2e, collectRuns_cons, htw2]
    have hglue : (collectRuns env db style
        (processWords env db style c2 [twA2, twB2]).2.1 []).2.2 = 0 := rfl
    rw [hglue, Nat.add_zero, hrun2count]
    rfl

/-- The word-loop cache evolution on an all-fresh, duplicate-free word
list is exactly a sequence of LRU insertions. -/
theorem processWords_fresh (env : ShapeEnv) (db : FontDb) (style : TextStyle) :
    ∀ (tws : List TaggedWord) (c : LruCache ShapingId ShapeResult),
      ((tws.map (wordKey style)).Nodup) →
      (∀ tw ∈ tws, c.peek (wordKey style tw) = none) →
      (processWords env db style c tws).2.1 =
        c.putAll (tws.map fun tw =>
          (wordKey style tw, (missResult env db style tw).1)) := by
  intro tws
  induction tws with
  | nil => intro c _ _; rfl
  | cons tw rest ih =>
    intro c hnd hf
    rw [List.map_cons, List.nodup_cons] at hnd
    rw [processWords_cons, processWord1_miss env db style c tw
      (hf tw (List.mem_cons_self tw rest))]
    show (processWords env db style
      (c.put (wordKey style tw) (missResult env db style tw).1) rest).2.1 = _
    rw [List.map_cons, LruCache.putAll_cons]
    refine ih _ hnd.2 ?_
    intro tw2 htw2
    refine LruCache.peek_none_put c (wordKey style tw) (wordKey style tw2)
      (missResult env db style tw).1 (hf tw2 (List.mem_cons_of_mem tw htw2)) ?_
    intro he
    exact hnd.1 (he ▸ List.mem_map_of_mem (wordKey style) htw2)

theorem splitInclusive_body (sep : Char) :
    ∀ (body t : List Char), sep ∉ body →
      splitInclusive sep (body ++ sep :: t) =
        (body ++ [sep]) :: splitInclusive sep t := by
  intro body
  induction body with
  | nil =>
    intro t _
    rw [List.nil_append]
    exact splitInclusive_cons_sep sep t
  | cons b bs ih =>
    intro t hns
    have hb : b ≠ sep := fun h => hns (h ▸ List.mem_cons_self b bs)
    rw [List.cons_append, splitInclusive_cons_ne sep b _ hb,
      ih t fun h => hns (List.mem_cons_of_mem b h)]
    rfl

theorem splitInclusive_flatten_words (sep : Char) :
    ∀ ws : List (List Char),
      (∀ w ∈ ws, ∃ body, w = body ++ [sep] ∧ sep ∉ body) →
      splitInclusive sep ws.flatten = ws := by
  intro ws
  induction ws with
  | nil => intro _; rfl
  | cons w rest ih =>
    intro h
    obtain ⟨body, hw, hnb⟩ := h w (List.mem_cons_self w rest)
    subst hw
    rw [List.flatten_cons, List.append_assoc, List.singleton_append,
      splitInclusive_body sep body _ hnb,
      ih fun v hv => h v (List.mem_cons_of_mem _ hv)]

/-- Character number i of the 52-letter alphabet a-z, A-Z. -/
def chAt (i : Nat) : Char :=
  if i < 26 then Char.ofNat (97 + i) else Char.ofNat (65 + (i - 26))

/-- The i-th probe word: two letters and a space. -/
def bigWord (i : Nat) : List Char := [chAt (i / 52), chAt (i % 52), ' ']

/-- The index of the probe word with the smallest FNV-1a hash. -/
def bigPerm0 : Nat := 514

/-- The remaining 1000 word indices, ordered by increasing FNV-1a hash
of the corresponding word. -/
def bigPermRest : List Nat := [
  262, 72, 534, 681, 454, 194, 857, 171, 772, 330, 369, 991, 572, 117, 88, 780, 963, 705, 489, 289,
  547, 881, 637, 423, 2, 199, 358, 392, 137, 741, 808, 603, 513, 261, 71, 531, 684, 310, 650, 936,
  234, 193, 455, 368, 178, 769, 327, 118, 292, 998, 708, 484, 87, 638, 964, 548, 198, 882, 424, 807,
  391, 138, 742, 355, 264, 602, 121, 683, 309, 532, 516, 74, 651, 941, 235, 177, 934, 456, 367, 115,
  851, 578, 770, 328, 707, 291, 997, 98, 197, 483, 143, 883, 425, 806, 390, 601, 122, 356, 263, 739,
  521, 686, 942, 515, 73, 652, 49, 176, 449, 236, 577, 933, 116, 852, 366, 996, 767, 710, 284, 962,
  546, 97, 204, 486, 624, 426, 208, 144, 119, 353, 740, 522, 685, 266, 68, 939, 510, 311, 450, 50,
  175, 853, 653, 237, 576, 147, 365, 995, 768, 100, 967, 551, 709, 485, 283, 877, 625, 435, 209, 203,
  908, 354, 623, 141, 737, 404, 120, 509, 265, 67, 940, 688, 451, 51, 238, 935, 854, 654, 765, 364,
  575, 148, 99, 712, 480, 968, 210, 552, 907, 878, 626, 436, 23, 202, 673, 403, 142, 738, 622, 125,
  512, 70, 520, 687, 655, 945, 239, 914, 847, 452, 181, 766, 145, 285, 711, 479, 94, 627, 965, 211,
  549, 692, 674, 24, 201, 879, 437, 402, 735, 126, 621, 690, 525, 511, 69, 656, 946, 240, 180, 913,
  461, 45, 378, 146, 848, 805, 597, 763, 337, 714, 1000, 550, 691, 93, 628, 966, 482, 675, 25, 212,
  909, 880, 438, 401, 123, 736, 526, 689, 943, 506, 647, 46, 179, 462, 241, 596, 916, 151, 849, 804,
  377, 999, 764, 713, 971, 571, 694, 96, 207, 481, 629, 431, 213, 888, 873, 124, 400, 733, 523, 317,
  718, 944, 505, 302, 463, 47, 850, 648, 242, 595, 915, 335, 376, 761, 152, 95, 803, 972, 716, 476,
  19, 693, 874, 630, 432, 214, 206, 887, 363, 734, 318, 831, 399, 129, 508, 949, 524, 717, 301, 464,
  48, 243, 910, 843, 649, 762, 336, 375, 149, 802, 412, 715, 475, 969, 215, 569, 890, 696, 875, 433,
  20, 205, 398, 731, 315, 830, 507, 304, 545, 720, 950, 244, 844, 457, 41, 374, 759, 343, 801, 411,
  150, 276, 478, 695, 970, 216, 570, 889, 21, 876, 434, 829, 397, 732, 127, 361, 616, 316, 719, 303,
  502, 76, 947, 245, 912, 458, 42, 373, 155, 845, 800, 410, 760, 344, 275, 698, 975, 477, 22, 217,
  884, 869, 828, 37, 386, 615, 128, 362, 729, 543, 313, 722, 306, 948, 501, 75, 43, 158, 459, 246,
  911, 846, 799, 372, 757, 341, 409, 976, 697, 278, 15, 472, 56, 218, 38, 870, 665, 614, 314, 827,
  385, 730, 544, 953, 504, 721, 305, 460, 44, 157, 839, 247, 590, 922, 342, 371, 758, 153, 102, 798,
  408, 973, 471, 277, 55, 16, 700, 871, 219, 39, 886, 666, 613, 826, 384, 503, 77, 954, 724, 308,
  11, 248, 921, 840, 156, 755, 339, 407, 589, 154, 101, 797, 474, 280, 58, 974, 220, 885, 699, 872,
  667, 17, 184, 40, 383, 728, 312, 825, 620, 498, 82, 794, 307, 723, 639, 951, 249, 924, 841, 12,
  756, 796, 406, 588, 340, 279, 473, 979, 221, 563, 896, 57, 668, 18, 183, 865, 439, 824, 33, 382,
  793, 619, 325, 726, 294, 497, 81, 640, 952, 250, 162, 923, 13, 842, 795, 405, 587, 282, 608, 564,
  701, 103, 980, 182, 468, 52, 669, 222, 34, 895, 866, 440, 823, 618, 105, 792, 381, 326, 725, 293,
  957, 500, 84, 14, 161, 641, 251, 594, 918, 835, 419, 820, 607, 754, 338, 977, 753, 561, 281, 441,
  223, 35, 898, 867, 670, 617, 106, 323, 822, 380, 537, 83, 791, 958, 499, 296, 465, 7, 160, 836,
  642, 420, 252, 593, 917, 351, 606, 819, 978, 562, 470, 268, 54, 868, 224, 36, 188, 897, 671, 582,
  930, 324, 821, 379, 494, 78, 790, 955, 538, 727, 295, 466, 253, 920, 837, 643, 421, 8, 159, 352,
  592, 131, 751, 818, 605, 469, 267, 53, 983, 225, 567, 892, 861, 445, 672, 187, 929, 29, 779, 321,
  789, 581, 104, 298, 535, 644, 956, 254, 919, 838, 467, 9, 166, 422, 817, 591, 132, 752, 349, 270,
  612, 984, 226, 568, 891, 64, 657, 186, 932, 862, 446, 30, 109, 788, 580, 322, 297, 536, 496, 80,
  645, 961, 255, 555, 165, 904, 10, 816, 611, 350, 269, 749, 565, 676, 981, 185, 63, 658, 227, 31,
  894, 863, 447, 579, 931, 110, 787, 777, 541, 319, 300, 990, 556, 495, 79, 3, 164, 492, 646, 416,
  256, 903, 130, 832, 610, 347, 815, 415, 982, 750, 566, 272, 66, 192, 448, 228, 32, 893, 864, 659,
  586, 926, 107, 320, 989, 778, 542, 90, 786, 959, 553, 491, 299, 4, 163, 833, 631, 417, 257, 906,
  348, 609, 135, 747, 814, 414, 987, 529, 271, 65, 678, 229, 191, 925, 660, 775, 333, 988, 585, 108,
  89, 785, 960, 539, 702, 286, 258, 554, 905, 834, 632, 418, 5, 170, 345, 413, 136, 748, 813, 600,
  518, 274, 60, 230, 530, 677, 858, 661, 190, 928, 442, 26, 389, 776, 334, 784, 584, 113, 540, 493,
  92, 633, 259, 559, 900, 6, 169, 427, 812, 396, 133, 745, 346, 273, 599, 680, 985, 231, 527, 517,
  59, 662, 189, 927, 859, 443, 27, 388, 174, 114, 783, 583, 773, 331, 704, 288, 994, 560, 91, 634,
  168, 488, 899, 134, 428, 811, 395, 598, 359, 260, 746, 528, 679, 986, 196, 62, 663, 232, 937, 28,
  173, 860, 444, 574, 111, 855, 782, 387, 993, 774, 332, 703, 287, 557, 86, 0, 167, 487, 635, 429,
  902, 139, 360, 810, 394, 743, 533, 682, 61, 938, 195, 519, 453, 233, 172, 856, 664, 573, 112, 329,
  370, 992, 771, 85, 781, 558, 706, 490, 290, 1, 200, 636, 430, 901, 357, 604, 140, 744, 809, 393]

/-- The indices 0..1000, ordered by increasing word hash. -/
def bigPerm : List Nat := bigPerm0 :: bigPermRest

/-- 1001 pairwise distinct words: one more than the cache capacity. -/
def bigWords : List (List Char) := bigPerm.map bigWord

/-- The C1 counterexample text: 1001 distinct space-terminated words. -/
def bigText : List Char := bigWords.flatten

/-- An environment whose engine returns no glyphs at all: every shaping
succeeds trivially, keeping the counterexample free of rational
arithmetic. -/
def exEnvTriv : ShapeEnv := ⟨uScript, uBidi, fun _ _ _ _ _ => []⟩

/-- A store with a single candidate font, so each cache miss costs
exactly one engine invocation. -/
def exDbOne : FontDb :=
  { candidates := fun _ _ => [exFont]
    lookup := fun _ => none }

theorem chAt_latin : ∀ j, j < 52 → uScript (chAt j) = .Latin := by decide

theorem chAt_ne_space : ∀ j, j < 52 → chAt j ≠ ' ' := by decide

theorem bigWord_split_shape : ∀ i, i < LRU_CACHE_CAPACITY + 1 →
    ∃ body, bigWord i = body ++ [' '] ∧ ' ' ∉ body := by
  intro i hi
  refine ⟨[chAt (i / 52), chAt (i % 52)], rfl, ?_⟩
  have hi2 : i < 1001 := by simpa [LRU_CACHE_CAPACITY] using hi
  have h1 : i / 52 < 52 := Nat.div_lt_of_lt_mul (by omega)
  have h2 : i % 52 < 52 := Nat.mod_lt _ (by decide)
  intro hmem
  rcases List.mem_cons.mp hmem with h | h
  · exact chAt_ne_space _ h1 h.symm
  · rcases List.mem_cons.mp h with h | h
    · exact chAt_ne_space _ h2 h.symm
    · simp at h

/-- An executable bound check over a list of indices. -/
def allLtCheck (n : Nat) : List Nat → Bool
  | [] => true
  | x :: t => decide (x < n) && allLtCheck n t

theorem allLtCheck_sound (n : Nat) : ∀ l : List Nat,
    allLtCheck n l = true → ∀ i ∈ l, i < n := by
  intro l
  induction l with
  | nil => intro _ i hi; exact absurd hi (List.not_mem_nil i)
  | cons x t ih =>
    intro h i hi
    rw [allLtCheck, Bool.and_eq_true] at h
    rcases List.mem_cons.mp hi with rfl | hmem
    · exact of_decide_eq_true h.1
    · exact ih h.2 i hmem

set_option maxRecDepth 100000 in
theorem bigPerm_lt : ∀ i ∈ bigPerm, i < LRU_CACHE_CAPACITY + 1 :=
  allLtCheck_sound (LRU_CACHE_CAPACITY + 1) bigPerm (by rfl)

set_option maxRecDepth 100000 in
theorem bigPermRest_length : bigPermRest.length = LRU_CACHE_CAPACITY := by rfl

theorem bigText_split : splitInclusive ' ' bigText = bigWords := by
  refine splitInclusive_flatten_words ' ' bigWords ?_
  intro w hw
  obtain ⟨i, hi, rfl⟩ := List.mem_map.mp hw
  exact bigWord_split_shape i (bigPerm_lt i hi)

theorem bigText_scripts : ∀ x ∈ bigText, uScript x = .Latin ∨
    (uScript x = .Common ∨ uScript x = .Inherited) := by
  intro x hx
  obtain ⟨w, hw, hxw⟩ := List.mem_flatten.mp hx
  obtain ⟨i, hi, rfl⟩ := List.mem_map.mp hw
  have hi2 : i < 1001 := by simpa [LRU_CACHE_CAPACITY] using bigPerm_lt i hi
  have h1 : i / 52 < 52 := Nat.div_lt_of_lt_mul (by omega)
  have h2 : i % 52 < 52 := Nat.mod_lt _ (by decide)
  rcases List.mem_cons.mp hxw with rfl | h
  · exact Or.inl (chAt_latin _ h1)
  · rcases List.mem_cons.mp h with rfl | h
    · exact Or.inl (chAt_latin _ h2)
    · rcases List.mem_cons.mp h with rfl | h
      · exact Or.inr (Or.inl (by decide))
      · simp at h

set_option maxRecDepth 100000 in
theorem bigText_segmentation :
    unicodeScripts uScript uBidi bigText = [(.Latin, .Ltr, bigText)] := by
  have hhead : bigText.head? = some 'j' := by decide
  cases hbt : bigText with
  | nil => rw [hbt] at hhead; exact absurd hhead (by simp)
  | cons c cs =>
    rw [hbt] at hhead
    have hc : c = 'j' := by simpa using hhead
    subst hc
    have hall : ∀ x ∈ cs, uScript x = .Latin ∨
        (uScript x = .Common ∨ uScript x = .Inherited) := by
      intro x hx
      refine bigText_scripts x ?_
      rw [hbt]
      exact List.mem_cons_of_mem _ hx
    have hres := unicodeScripts_one_concrete uScript uBidi .Latin (by decide)
      'j' cs (by decide) hall
    rw [hres]
    rfl

/-- An executable strict-increase check over machine-word hashes. -/
def chainLt : List Nat → Bool
  | a :: b :: t => decide (a < b) && chainLt (b :: t)
  | _ => true

theorem chainLt_chain : ∀ l : List Nat, chainLt l = true →
    l.Chain' (fun a b => a < b) := by
  intro l
  induction l with
  | nil => intro _; exact List.chain'_nil
  | cons x xs ih =>
    cases xs with
    | nil => intro _; exact List.chain'_singleton x
    | cons y t =>
      intro h
      rw [chainLt, Bool.and_eq_true] at h
      exact List.chain'_cons.mpr ⟨of_decide_eq_true h.1, ih h.2⟩

theorem chainLt_sound (l : List Nat) (h : chainLt l = true) : l.Nodup :=
  (List.chain'_iff_pairwise.mp (chainLt_chain l h)).imp Nat.ne_of_lt

set_option maxRecDepth 100000 in
set_option maxHeartbeats 4000000 in
/-- The 1001 probe words, listed in increasing hash order, have
strictly increasing and hence pairwise distinct FNV-1a hashes, so
their shaping keys are pairwise distinct. -/
theorem bigHashes_nodup : (bigWords.map fnvHashStr).Nodup :=
  chainLt_sound _ (by rfl)



/-- The tagged words of the counterexample text's single run. -/
def bigTws : List TaggedWord :=
  bigWords.map fun w => ⟨w, .Ltr, .Latin⟩

/-- The key/value pairs the first call inserts, in order. -/
def bigKvs : List (ShapingId × ShapeResult) :=
  bigTws.map fun tw =>
    (wordKey exStyle tw, (missResult exEnvTriv exDbOne exStyle tw).1)

/-- The first word of the counterexample text. -/
def bigTw0 : TaggedWord := ⟨bigWord bigPerm0, .Ltr, .Latin⟩

/-- The 1000 remaining words. -/
def bigRestW : List (List Char) := bigPermRest.map bigWord

theorem collectRuns_nil (env : ShapeEnv) (db : FontDb) (style : TextStyle)
    (c : LruCache ShapingId ShapeResult) :
    collectRuns env db style c [] = ([], c, 0) := rfl

theorem collectRuns_cons_count (env : ShapeEnv) (db : FontDb)
    (style : TextStyle) (c : LruCache ShapingId ShapeResult)
    (r : Script × Direction × List Char)
    (rest : List (Script × Direction × List Char)) :
    (collectRuns env db style c (r :: rest)).2.2 =
      (processWords env db style c (taggedWordsOfRun r)).2.2 +
        (collectRuns env db style
          (processWords env db style c (taggedWordsOfRun r)).2.1 rest).2.2 := rfl

theorem collectRuns_nil_count (env : ShapeEnv) (db : FontDb)
    (style : TextStyle) (c : LruCache ShapingId ShapeResult) :
    (collectRuns env db style c []).2.2 = 0 := rfl

theorem processWords_cons_count (env : ShapeEnv) (db : FontDb)
    (style : TextStyle) (c : LruCache ShapingId ShapeResult)
    (tw : TaggedWord) (rest : List TaggedWord) :
    (processWords env db style c (tw :: rest)).2.2 =
      (processWord1 env db style c tw).2.2 +
        (processWords env db style
          (processWord1 env db style c tw).2.1 rest).2.2 := rfl

theorem processWord1_miss_count (env : ShapeEnv) (db : FontDb)
    (style : TextStyle) (c : LruCache ShapingId ShapeResult)
    (tw : TaggedWord) (h : c.peek (wordKey style tw) = none) :
    (processWord1 env db style c tw).2.2 =
      (missResult env db style tw).2 := by
  rw [processWord1_miss env db style c tw h]

theorem bigTws_cons : bigTws = bigTw0 ::
    bigRestW.map (fun w => (⟨w, .Ltr, .Latin⟩ : TaggedWord)) := by
  unfold bigTws bigWords bigRestW bigPerm
  rw [List.map_cons, List.map_cons]
  rfl

theorem bigRun_tagged :
    taggedWordsOfRun (Script.Latin, Direction.Ltr, bigText) = bigTws := by
  unfold taggedWordsOfRun bigTws
  dsimp only
  rw [if_neg (show ¬(Direction.Ltr = Direction.Rtl) by decide)]
  rw [bigText_split]

theorem bigKeys_nodup : (bigTws.map (wordKey exStyle)).Nodup := by
  unfold bigTws
  rw [List.map_map]
  have hcomp : ((wordKey exStyle) ∘ fun w => (⟨w, .Ltr, .Latin⟩ : TaggedWord)) =
      (fun h => (⟨exStyle.size, h, exStyle.weight, exStyle.width_class,
        exStyle.font_style⟩ : ShapingId)) ∘ fnvHashStr := rfl
  rw [hcomp, ← List.map_map]
  exact List.Nodup.map (fun a b hh => congrArg ShapingId.text_hash hh)
    bigHashes_nodup

theorem bigKvs_fst : bigKvs.map Prod.fst = bigTws.map (wordKey exStyle) := by
  unfold bigKvs
  rw [List.map_map]
  rfl

theorem bigCache_after_first :
    (processWords exEnvTriv exDbOne exStyle Shaper.default.cache bigTws).2.1 =
      Shaper.default.cache.putAll bigKvs :=
  processWords_fresh exEnvTriv exDbOne exStyle bigTws Shaper.default.cache
    bigKeys_nodup (fun _ _ => rfl)

theorem defaultCache_WF : (Shaper.default.cache).WF := by
  constructor
  · show ([] : List (ShapingId × ShapeResult)).length ≤ LRU_CACHE_CAPACITY
    simp
  · show (([] : List (ShapingId × ShapeResult)).map Prod.fst).Nodup
    simp

theorem bigPeek_none :
    (Shaper.default.cache.putAll bigKvs).peek (wordKey exStyle bigTw0) =
      none := by
  have hwin := LruCache.putAll_keys bigKvs Shaper.default.cache
    (by show 0 < LRU_CACHE_CAPACITY; decide) defaultCache_WF
    (fun _ _ => rfl) (by rw [bigKvs_fst]; exact bigKeys_nodup)
  have hkeysList : bigTws.map (wordKey exStyle) =
      wordKey exStyle bigTw0 ::
        (bigRestW.map (fun w => (⟨w, .Ltr, .Latin⟩ : TaggedWord))).map
          (wordKey exStyle) := by
    rw [bigTws_cons, List.map_cons]
  have hndc := hkeysList ▸ bigKeys_nodup
  rw [List.nodup_cons] at hndc
  have hlenrest : ((bigRestW.map
      (fun w => (⟨w, .Ltr, .Latin⟩ : TaggedWord))).map
        (wordKey exStyle)).length = LRU_CACHE_CAPACITY := by
    rw [List.length_map, List.length_map]
    unfold bigRestW
    rw [List.length_map]
    exact bigPermRest_length
  have hkeysfin : (Shaper.default.cache.putAll bigKvs).keys =
      ((bigRestW.map (fun w => (⟨w, .Ltr, .Latin⟩ : TaggedWord))).map
        (wordKey exStyle)).reverse := by
    rw [hwin, bigKvs_fst, hkeysList]
    show ((wordKey exStyle bigTw0 :: _).reverse ++
        ([] : List ShapingId)).take LRU_CACHE_CAPACITY = _
    rw [List.append_nil, List.reverse_cons]
    rw [show LRU_CACHE_CAPACITY = ((bigRestW.map
      (fun w => (⟨w, .Ltr, .Latin⟩ : TaggedWord))).map
        (wordKey exStyle)).reverse.length by rw [List.length_reverse, hlenrest]]
    rw [List.take_left]
  rw [LruCache.peek_eq_none]
  intro e he heq
  have hmem : e.1 ∈ (Shaper.default.cache.putAll bigKvs).keys :=
    List.mem_map_of_mem Prod.fst he
  rw [hkeysfin, heq, List.mem_reverse] at hmem
  exact hndc.1 hmem

/-- Counterexample for C1 as stated: a text of 1001 distinct words
overflows the 1000-entry cache during the first call, evicting the
first word's entry, so the second identical call misses the cache and
invokes the engine again — its invocation count is nonzero. -/
theorem C1_counterexample :
    (Shaper.shape exEnvTriv 0 0 0 exDbOne exStyle bigText
      (Shaper.shape exEnvTriv 0 0 0 exDbOne exStyle bigText
        Shaper.default).2.1).2.2 ≠ 0 := by
  have hsegE : unicodeScripts exEnvTriv.scriptOf exEnvTriv.bidiOf bigText =
      [(.Latin, .Ltr, bigText)] := bigText_segmentation
  have hC1 : ((Shaper.shape exEnvTriv 0 0 0 exDbOne exStyle bigText
      Shaper.default).2.1).cache = Shaper.default.cache.putAll bigKvs := by
    rw [shape_cache, hsegE, collectRuns_cons, bigRun_tagged, bigCache_after_first,
      collectRuns_nil]
  have hm1 : (missResult exEnvTriv exDbOne exStyle bigTw0).2 = 1 := rfl
  rw [shape_count, hC1, hsegE, collectRuns_cons_count, collectRuns_nil_count,
    bigRun_tagged, bigTws_cons, processWords_cons_count,
    processWord1_miss_count exEnvTriv exDbOne exStyle _ bigTw0 bigPeek_none,
    hm1]
  omega

theorem C1_witness :
    (taggedWords exEnv ['a', 'b', ' ', 'c']).length ≤ LRU_CACHE_CAPACITY ∧
    ((Shaper.shape exEnv 2 0 0 exDb exStyle ['a', 'b', ' ', 'c']
        (Shaper.shape exEnv 2 0 0 exDb exStyle ['a', 'b', ' ', 'c']
          Shaper.default).2.1).1 =
      (Shaper.shape exEnv 2 0 0 exDb exStyle ['a', 'b', ' ', 'c']
        Shaper.default).1
    ∧ (Shaper.shape exEnv 2 0 0 exDb exStyle ['a', 'b', ' ', 'c']
        (Shaper.shape exEnv 2 0 0 exDb exStyle ['a', 'b', ' ', 'c']
          Shaper.default).2.1).2.2 = 0) :=
  ⟨by decide, C1_shape_idempotent_within_capacity exEnv 2 0 0 exDb exStyle
    ['a', 'b', ' ', 'c'] (by decide)⟩

end Femtovg
